import Mathlib

/-!
Row-partitioned 2D heat diffusion: a shallow embedding of `src/mpi.c`.

* A `double *` is a `Buf`: the array of cells behind the pointer, of the size
  it was allocated with.  Cells are rationals, so the arithmetic of `update` is
  exact.  An access outside the array (undefined in C) reads 0 and writes
  nothing; every theorem that relies on the effect of a write carries the
  sizes that keep the write inside its buffer.
* C `int`s are unbounded integers; the one place where `int` overflow is
  in question (`initdata`) wraps every product to 32 bits explicitly.
* `for` loops with a counter that the body does not assign are `forLe` / `forLt`;
  the `while` loop of the coordinator carries fuel and answers `none` when the
  fuel runs out.
* A matching `MPI_Send` / `MPI_Recv` pair moves the first `count` cells of the
  sender's buffer to the front of the receiver's buffer.
-/

namespace HeatMPI

/-! ## Constants and parameters -/

/-- Number of grid rows (`#define XDIM 100`). -/
def XDIM : Int := 100

/-- Number of grid columns (`#define YDIM 100`). -/
def YDIM : Int := 100

/-- Rank of the coordinator (`#define MASTER 0`). -/
def MASTER : Int := 0

/-- The `struct Params` of the source. -/
structure Params where
  cx : ℚ
  cy : ℚ
  nts : Int

/-- The global `params = {0.1, 0.1, 100}`. -/
def params : Params := ⟨1 / 10, 1 / 10, 100⟩

/-! ## Buffers and loops -/

/-- The cells behind a `double *`. -/
abbrev Buf := Array ℚ

/-- The read `*(b + k)`. -/
def load (b : Buf) (k : Int) : ℚ := if 0 ≤ k then b.getD k.toNat 0 else 0

/-- The assignment `*(b + k) = v`. -/
def store (b : Buf) (k : Int) (v : ℚ) : Buf := if 0 ≤ k then b.setD k.toNat v else b

/-- The buffer `calloc(n, sizeof(double))`: `n` cells, all zero. -/
def callocBuf (n : Int) : Buf := mkArray n.toNat 0

/-- Runs `body i`, `body (i+1)`, ... for `n` consecutive counter values. -/
def loopFrom {σ : Type} (body : Int → σ → σ) : Nat → Int → σ → σ
  | 0, _, s => s
  | n + 1, i, s => loopFrom body n (i + 1) (body i s)

/-- The loop `for (i = lo; i <= hi; i++) body`. -/
def forLe {σ : Type} (lo hi : Int) (body : Int → σ → σ) (s : σ) : σ :=
  loopFrom body (hi + 1 - lo).toNat lo s

/-- The loop `for (i = lo; i < hi; i++) body`. -/
def forLt {σ : Type} (lo hi : Int) (body : Int → σ → σ) (s : σ) : σ :=
  loopFrom body (hi - lo).toNat lo s

/-! ## The grid operations -/

/-- Function `split` of the source: copies rows `startRow .. endRow` of `fMat`
to the front of `splitMat`.  The result is the new `splitMat`; `fMat` is only
read. -/
def split (fMat splitMat : Buf) (startRow endRow : Int) : Buf :=
  let numRows := endRow - startRow + 1
  forLt 0 numRows (fun ix splitMat =>
    let currentRow := startRow + ix
    forLt 0 XDIM (fun iy splitMat =>
      store splitMat (ix * XDIM + iy) (load fMat (currentRow * XDIM + iy))) splitMat) splitMat

/-- Function `combine` of the source: copies the rows strictly between the two
halo rows of `segMatrix` into `tarMatrix`.  The result is the new `tarMatrix`. -/
def combine (segMatrix tarMatrix : Buf) (startRow endRow : Int) : Buf :=
  let numRows := endRow - startRow - 1
  forLe 1 numRows (fun i tarMatrix =>
    let currentRow := startRow + i
    forLt 1 (YDIM - 1) (fun j tarMatrix =>
      store tarMatrix (currentRow * YDIM + j) (load segMatrix (i * YDIM + j))) tarMatrix) tarMatrix

/-- Function `update` of the source, reading the coefficients from `params`.
The result is the new `u2`; `u1` is only read. -/
def update (nx ny : Int) (u1 u2 : Buf) : Buf :=
  forLe 1 (nx - 2) (fun ix u2 =>
    forLe 1 (ny - 2) (fun iy u2 =>
      store u2 (ix * ny + iy)
        (load u1 (ix * ny + iy)
          + params.cx * (load u1 ((ix + 1) * ny + iy) + load u1 ((ix - 1) * ny + iy)
              - 2 * load u1 (ix * ny + iy))
          + params.cy * (load u1 (ix * ny + iy + 1) + load u1 (ix * ny + iy - 1)
              - 2 * load u1 (ix * ny + iy)))) u2) u2

/-- Reduction of an integer to the range of a signed 32-bit `int`. -/
def wrap32 (x : Int) : Int := (x + 2147483648) % 4294967296 - 2147483648

/-- The `int` product `ix * (nx - ix - 1) * iy * (ny - iy - 1)` of `initdata`,
every multiplication reduced to 32 bits. -/
def initCell (nx ny ix iy : Int) : Int :=
  wrap32 (wrap32 (wrap32 (ix * wrap32 (nx - ix - 1)) * iy) * wrap32 (ny - iy - 1))

/-- Function `initdata` of the source.  The result is the new `u1`. -/
def initdata (nx ny : Int) (u1 : Buf) : Buf :=
  forLe 0 (nx - 1) (fun ix u1 =>
    forLe 0 (ny - 1) (fun iy u1 =>
      store u1 (ix * ny + iy) ((initCell nx ny ix iy : Int) : ℚ)) u1) u1

/-! ## Messages -/

/-- The three messages of one exchange (tags 1, 2 and 3) between the coordinator
and the worker `rank`: start row, end row and the cells sent. -/
structure Msg where
  rank : Int
  startRow : Int
  endRow : Int
  payload : List ℚ

/-- The cells that `MPI_Send(buf, count, MPI_DOUBLE, ..)` puts on the wire: the
first `count` cells of `buf`. -/
def cells (buf : Buf) (count : Int) : List ℚ :=
  (List.range count.toNat).map (fun (k : Nat) => load buf (k : Int))

/-- The effect of `MPI_Recv(buf, count, MPI_DOUBLE, ..)` on `buf` when the
matching send carries `payload`: the cells land at the front of `buf`.  A
message longer than `count` is an MPI error (`none`). -/
def recvCells (payload : List ℚ) (count : Int) (buf : Buf) : Option Buf :=
  if (payload.length : Int) ≤ count then
    some (forLt 0 (payload.length : Int) (fun k buf => store buf k (payload.getD k.toNat 0)) buf)
  else none

/-! ## Process state -/

/-- A file name built by `sprintf`: `initial_new_<number>.csv` when `initial`,
otherwise `final_new_<number>.csv`. -/
structure FileName where
  initial : Bool
  number : Int

/-- One call of `prtdata`: its arguments. -/
structure Snapshot where
  nx : Int
  ny : Int
  ts : Int
  grid : Buf
  fname : FileName

/-- The buffers of the coordinator (rank `MASTER`) and the files it has written. -/
structure Master where
  full_u_a : Buf
  full_u_b : Buf
  broken_u_a : Buf
  broken_u_b : Buf
  files : List Snapshot

/-- The buffers of a worker (rank above `MASTER`). -/
structure Worker where
  broken_u_a : Buf
  broken_u_b : Buf

/-- All processes of a run: the coordinator and the workers by rank. -/
structure World where
  master : Master
  workers : Int → Worker

/-- Function `prtdata` of the source, as far as the run is concerned: the
coordinator records the call. -/
def prtdata (nx ny ts : Int) (u1 : Buf) (fname : FileName) (m : Master) : Master :=
  { m with files := m.files ++ [⟨nx, ny, ts, u1, fname⟩] }

/-! ## Block size -/

/-- The quotient `splitSizeD = (double)XDIM / (double)(numtasks-1)`.  The double
quotient and the exact one have the same ceiling for every `int` divisor. -/
def splitSizeD (numtasks : Int) : ℚ := (XDIM : ℚ) / ((numtasks - 1 : Int) : ℚ)

/-- The block height `splitSizeI`: `ceil(splitSizeD) + 2`, at most `XDIM`. -/
def splitSizeI (numtasks : Int) : Int :=
  let splitSizeI := Int.ceil (splitSizeD numtasks) + 2
  if splitSizeI > XDIM then XDIM else splitSizeI

/-! ## One timestep on the coordinator and on a worker -/

/-- The test `it & 1`. -/
def isOdd (it : Int) : Bool := it % 2 = 1

/-- The full grid that `split` reads in timestep `it`. -/
def splitSource (it : Int) (m : Master) : Buf :=
  if isOdd it then m.full_u_a else m.full_u_b

/-- The loop `while (rowi < XDIM - 2)` of the coordinator: splits the next row
group into `broken_u_a` and sends it to `nodei`.  Returns the final `nodei`, the
final `broken_u_a` and the messages sent, in order; `none` when the fuel runs
out before the loop ends. -/
def partitionLoop (src : Buf) (numRows : Int) : Nat → Int → Int → Buf → Option (Int × Buf × List Msg)
  | 0, rowi, nodei, broken_u_a =>
    if rowi < XDIM - 2 then none else some (nodei, broken_u_a, [])
  | fuel + 1, rowi, nodei, broken_u_a =>
    if rowi < XDIM - 2 then
      let endRow := rowi + numRows + 1
      let endRow := if endRow ≥ YDIM then YDIM - 1 else endRow
      let broken_u_a := split src broken_u_a rowi endRow
      let numRowsSent := endRow - rowi + 1
      let numCellsSent := numRowsSent * XDIM
      let msg : Msg := ⟨nodei, rowi, endRow, cells broken_u_a numCellsSent⟩
      match partitionLoop src numRows fuel (rowi + numRows) (nodei + 1) broken_u_a with
      | none => none
      | some (n, b, ms) => some (n, b, msg :: ms)
    else some (nodei, broken_u_a, [])

/-- The loop `while (nodei < numtasks)` that sends the dummy range `(0, 0)` and
zero cells to every rank left over. -/
def sentinelLoop (numtasks nodei : Int) (broken_u_a : Buf) : List Msg :=
  forLt nodei numtasks (fun nodei out =>
    let rowi := 0
    let endRow := 0
    out ++ [⟨nodei, rowi, endRow, cells broken_u_a 0⟩]) []

/-- The partition loop of timestep `it` as `main` enters it: `rowi = 0`,
`nodei = 1`, `numRows = splitSizeI - 2`.  The fuel `XDIM` is more than the loop
can use. -/
def partition (numtasks it : Int) (m : Master) : Option (Int × Buf × List Msg) :=
  let splitSize := splitSizeI numtasks
  let splitSizeReal := splitSize - 2
  let numRows := splitSizeReal
  partitionLoop (splitSource it m) numRows XDIM.toNat 0 1 m.broken_u_a

/-- Everything the coordinator sends in timestep `it`: the final `broken_u_a` and
the messages in the order sent, the row groups first and the dummy ranges after. -/
def dispatch (numtasks it : Int) (m : Master) : Option (Buf × List Msg) :=
  match partition numtasks it m with
  | none => none
  | some (nodei, broken_u_a, ranges) =>
    some (broken_u_a, ranges ++ sentinelLoop numtasks nodei broken_u_a)

/-- One pass of the worker loop body: receive the range and the block, run
`update`, send the range and `broken_u_b` back.  Returns the worker's new buffers
and its reply. -/
def workerRound (msg : Msg) (w : Worker) : Option (Worker × Msg) :=
  let startRowBack := msg.startRow
  let endRowBack := msg.endRow
  let numRowsSent := endRowBack - startRowBack + 1
  let numCellsSent := numRowsSent * XDIM
  match recvCells msg.payload numCellsSent w.broken_u_a with
  | none => none
  | some broken_u_a =>
    let broken_u_b := update numRowsSent YDIM broken_u_a w.broken_u_b
    some (⟨broken_u_a, broken_u_b⟩,
      ⟨msg.rank, startRowBack, endRowBack, cells broken_u_b numCellsSent⟩)

/-- Hands every message to the worker it is addressed to and gathers the
replies.  A destination that is not a worker rank is an MPI error (`none`). -/
def deliver (numtasks : Int) : List Msg → (Int → Worker) → Option ((Int → Worker) × List Msg)
  | [], ws => some (ws, [])
  | msg :: rest, ws =>
    if 1 ≤ msg.rank ∧ msg.rank < numtasks then
      match workerRound msg (ws msg.rank) with
      | none => none
      | some (w, reply) =>
        match deliver numtasks rest (fun r => if r = msg.rank then w else ws r) with
        | none => none
        | some (ws2, replies) => some (ws2, reply :: replies)
    else none

/-- The body of the collecting loop for `nodei`: receive the reply of that rank
into `broken_u_b` and `combine` it into the grid of this timestep.  No reply from
`nodei` leaves the coordinator waiting (`none`). -/
def collectStep (it : Int) (replies : List Msg) (nodei : Int) (m : Master) : Option Master :=
  match replies.find? (fun r => decide (r.rank = nodei)) with
  | none => none
  | some r =>
    let startRowBack := r.startRow
    let endRowBack := r.endRow
    let numRowBack := endRowBack - startRowBack + 1
    let numCellBack := numRowBack * XDIM
    match recvCells r.payload numCellBack m.broken_u_b with
    | none => none
    | some broken_u_b =>
      if isOdd it then
        some { m with broken_u_b := broken_u_b,
                      full_u_b := combine broken_u_b m.full_u_b startRowBack endRowBack }
      else
        some { m with broken_u_b := broken_u_b,
                      full_u_a := combine broken_u_b m.full_u_a startRowBack endRowBack }

/-- The collecting loop `nodei = 1; while (nodei < numtasks)`. -/
def collect (numtasks it : Int) (replies : List Msg) (m : Master) : Option Master :=
  forLt 1 numtasks (fun nodei s =>
    match s with
    | none => none
    | some m => collectStep it replies nodei m) (some m)

/-- The `prtdata` call that ends timestep `it`. -/
def snapshot (it : Int) (m : Master) : Master :=
  if isOdd it then prtdata XDIM YDIM (it - 1) m.full_u_a ⟨false, it⟩ m
  else prtdata XDIM YDIM (it - 1) m.full_u_b ⟨false, it⟩ m

/-- One timestep `it` of the whole run: the coordinator dispatches, the workers
compute and reply, the coordinator collects and writes its file. -/
def round (numtasks it : Int) (w : World) : Option World :=
  match dispatch numtasks it w.master with
  | none => none
  | some (broken_u_a, outbox) =>
    match deliver numtasks outbox w.workers with
    | none => none
    | some (workers, replies) =>
      match collect numtasks it replies { w.master with broken_u_a := broken_u_a } with
      | none => none
      | some m => some ⟨snapshot it m, workers⟩

/-- The run up to the first timestep: every buffer from `calloc`, `full_u_a`
filled by `initdata` and written out. -/
def initWorld (numtasks : Int) : World :=
  let splitSizeI := splitSizeI numtasks
  let full_u_a := initdata XDIM YDIM (callocBuf (XDIM * YDIM))
  ⟨prtdata XDIM YDIM 0 full_u_a ⟨true, 1⟩
      ⟨full_u_a, callocBuf (XDIM * YDIM), callocBuf (splitSizeI * YDIM),
        callocBuf (splitSizeI * YDIM), []⟩,
    fun _ => ⟨callocBuf (splitSizeI * YDIM), callocBuf (splitSizeI * YDIM)⟩⟩

/-- The run after the timesteps `it = 1 .. t` of the loop
`for (it = 1; it <= params.nts; it++)`. -/
def timesteps (numtasks t : Int) : Option World :=
  forLe 1 t (fun it s =>
    match s with
    | none => none
    | some w => round numtasks it w) (some (initWorld numtasks))

/-- The full grid that `combine` writes in timestep `it`; for `it = 0` the grid
that `initdata` filled. -/
def stateGrid (it : Int) (m : Master) : Buf :=
  if isOdd it then m.full_u_b else m.full_u_a

/-- The `main` of the source for a timestep count `nts`: the exit status and the
processes at the end.  With fewer than two processes it returns 1 before any
buffer exists; otherwise it runs the timesteps and writes the last file, named
after the value of `it` when the loop has ended.  `none` when the run does not
reach its end. -/
def mainWith (nts numtasks : Int) : Option (Int × Option World) :=
  if numtasks ≤ 1 then some (1, none)
  else
    match timesteps numtasks nts with
    | none => none
    | some w =>
      let it := max 1 (nts + 1)
      some (0, some { w with master := snapshot it w.master })

/-- The `main` of the source, with `params.nts` timesteps. -/
def main (numtasks : Int) : Option (Int × Option World) :=
  mainWith params.nts numtasks

/-! ## Which full grid is used when -/

/-- The two full grids of the coordinator: `full_u_a` and `full_u_b`. -/
inductive GridId
  | a
  | b
  deriving DecidableEq

/-- The buffer behind a grid name. -/
def Master.grid (m : Master) : GridId → Buf
  | GridId.a => m.full_u_a
  | GridId.b => m.full_u_b

/-- The grid that timestep `it` passes to `split`:
`if (it&1) split(full_u_a, ..) else split(full_u_b, ..)`. -/
def readGrid (it : Int) : GridId := if isOdd it then GridId.a else GridId.b

/-- The grid that timestep `it` passes to `combine`:
`if (it&1) combine(.., full_u_b, ..) else combine(.., full_u_a, ..)`. -/
def writeGrid (it : Int) : GridId := if isOdd it then GridId.b else GridId.a

/-- The grid that `prtdata` is given when the counter is `it`:
`if (it&1) prtdata(.., full_u_a, ..) else prtdata(.., full_u_b, ..)`. -/
def printGrid (it : Int) : GridId := if isOdd it then GridId.a else GridId.b

/-! ## Predicates used to state the results -/

/-- The messages `ms` are what the partition loop sends when it is entered with
row `rowi` and rank `nodei`: one message per pass, each with the range and the
cell count of that pass. -/
def Tiles (numRows : Int) : Int → Int → List Msg → Prop
  | rowi, _, [] => ¬ rowi < XDIM - 2
  | rowi, nodei, m :: ms =>
    rowi < XDIM - 2 ∧ m.rank = nodei ∧ m.startRow = rowi ∧
      m.endRow = (if rowi + numRows + 1 ≥ YDIM then YDIM - 1 else rowi + numRows + 1) ∧
      m.payload.length = ((m.endRow - m.startRow + 1) * XDIM).toNat ∧
      Tiles numRows (rowi + numRows) (nodei + 1) ms

/-- The offset `x` is that of a cell in row `0` or `XDIM-1` or in column `0` or
`YDIM-1` of the full grid. -/
def IsBoundary (x : Int) : Prop :=
  ∃ r c : Int, 0 ≤ r ∧ r ≤ XDIM - 1 ∧ 0 ≤ c ∧ c ≤ YDIM - 1 ∧
    (r = 0 ∨ r = XDIM - 1 ∨ c = 0 ∨ c = YDIM - 1) ∧ x = r * YDIM + c

/-- The range of the message lies in the grid and its cells are no more than the
receiver asks for. -/
def Sound (msg : Msg) : Prop :=
  0 ≤ msg.startRow ∧ msg.startRow ≤ msg.endRow ∧ msg.endRow ≤ XDIM - 1 ∧
    (msg.payload.length : Int) ≤ (msg.endRow - msg.startRow + 1) * XDIM

/-- The value that `update` computes for the cell at offset `x` of a grid `src`
with rows of `YDIM` cells. -/
def stencil (src : Buf) (x : Int) : ℚ :=
  load src x + params.cx * (load src (x + YDIM) + load src (x - YDIM) - 2 * load src x)
    + params.cy * (load src (x + 1) + load src (x - 1) - 2 * load src x)

/-- The message is an assignment cut from `src` for buffers of `cap` cells: its
range lies in the grid, its rows fit in `cap` cells, and when the range has an
interior the cells are the rows `startRow .. endRow` of `src`. -/
def Assigned (cap : Int) (src : Buf) (msg : Msg) : Prop :=
  Sound msg ∧ (msg.endRow - msg.startRow + 1) * XDIM ≤ cap ∧
    (msg.startRow + 2 ≤ msg.endRow →
      (msg.payload.length : Int) = (msg.endRow - msg.startRow + 1) * XDIM ∧
      ∀ k : Int, 0 ≤ k → k < (msg.endRow - msg.startRow + 1) * XDIM →
        msg.payload.getD k.toNat 0 = load src (k + msg.startRow * XDIM))

/-- The message is the reply to an assignment cut from `src`: its range lies in
the grid, its rows fit in `cap` cells, it carries all of them, and the cells of
its interior rows and columns are the values that `update` computes from `src`. -/
def Answered (cap : Int) (src : Buf) (r : Msg) : Prop :=
  Sound r ∧ (r.endRow - r.startRow + 1) * XDIM ≤ cap ∧
    (r.payload.length : Int) = (r.endRow - r.startRow + 1) * XDIM ∧
    ∀ i j : Int, 1 ≤ i → i ≤ r.endRow - r.startRow - 1 → 1 ≤ j → j ≤ YDIM - 2 →
      r.payload.getD (i * YDIM + j).toNat 0 = stencil src ((r.startRow + i) * YDIM + j)

/-- Every buffer of the run has the size it is allocated with. -/
def WellSized (numtasks : Int) (w : World) : Prop :=
  (w.master.full_u_a.size : Int) = XDIM * YDIM ∧
  (w.master.full_u_b.size : Int) = XDIM * YDIM ∧
  (w.master.broken_u_a.size : Int) = splitSizeI numtasks * YDIM ∧
  (w.master.broken_u_b.size : Int) = splitSizeI numtasks * YDIM ∧
  ∀ rank : Int, ((w.workers rank).broken_u_a.size : Int) = splitSizeI numtasks * YDIM ∧
    ((w.workers rank).broken_u_b.size : Int) = splitSizeI numtasks * YDIM

/-! ## Buffers -/

theorem size_store (b : Buf) (k : Int) (v : ℚ) : (store b k v).size = b.size := by
  unfold store; split <;> simp

theorem load_store_eq (b : Buf) (k : Int) (v : ℚ) (h0 : 0 ≤ k) (h1 : k < b.size) :
    load (store b k v) k = v := by
  have h : k.toNat < b.size := by omega
  simp [load, store, h0, h]

theorem load_store_ne (b : Buf) (k x : Int) (v : ℚ) (h : x ≠ k) :
    load (store b k v) x = load b x := by
  unfold load store
  by_cases hx : 0 ≤ x <;> by_cases hk : 0 ≤ k <;> simp [hx, hk]
  have hne : k.toNat ≠ x.toNat := by omega
  simp [Array.setD]
  split
  · rw [Array.getElem?_set_ne]
    simpa using hne
  · rfl

theorem load_store_outside (b : Buf) (k x : Int) (v : ℚ) (h : ¬ (0 ≤ k ∧ k < b.size)) :
    load (store b k v) x = load b x := by
  unfold store
  by_cases hk : 0 ≤ k
  · have h2 : ¬ k.toNat < b.size := by omega
    simp [hk, Array.setD, h2]
  · simp [hk]

theorem load_callocBuf (n x : Int) : load (callocBuf n) x = 0 := by
  unfold load callocBuf
  split
  · rw [Array.getD_eq_get?, Array.getElem?_mkArray]
    split <;> rfl
  · rfl

theorem size_callocBuf (n : Int) : (callocBuf n).size = n.toNat := by
  simp [callocBuf]

theorem load_outside (b : Buf) (x : Int) (h : ¬ (0 ≤ x ∧ x < b.size)) : load b x = 0 := by
  unfold load
  by_cases hx : 0 ≤ x
  · have h2 : b.size ≤ x.toNat := by omega
    simp [hx, Array.getElem?_len_le b h2]
  · simp [hx]

/-! ## Loop lemmas -/

theorem loopFrom_inv {σ : Type} (body : Int → σ → σ) :
    ∀ (n : Nat) (Inv : Nat → σ → Prop) (lo : Int) (s : σ), Inv 0 s →
      (∀ (k : Nat) (t : σ), k < n → Inv k t → Inv (k + 1) (body (lo + k) t)) →
      Inv n (loopFrom body n lo s) := by
  intro n
  induction n with
  | zero => intro Inv lo s h0 _; exact h0
  | succ n ih =>
    intro Inv lo s h0 hstep
    have h1 : Inv 1 (body lo s) := by
      have := hstep 0 s (Nat.succ_pos n) h0
      simpa using this
    have := ih (fun k t => Inv (k + 1) t) (lo + 1) (body lo s) h1 (by
      intro k t hk ht
      have := hstep (k + 1) t (Nat.succ_lt_succ hk) ht
      have e : lo + 1 + (k : Int) = lo + ((k + 1 : Nat) : Int) := by push_cast; ring
      rw [e]; exact this)
    exact this

/-- A loop over buffers of `sz` cells whose iteration `i` overwrites exactly the
cells `W i`, each with a value that depends on the cell alone, overwrites the
union of the `W i` and keeps the size. -/
theorem loopFrom_writes (sz : Nat) (body : Int → Buf → Buf) (W : Int → Int → Prop)
    (val : Int → ℚ) (n : Nat) (lo : Int)
    (hbody : ∀ (i : Int) (b : Buf), lo ≤ i → i < lo + n → b.size = sz →
      (body i b).size = sz ∧
      ∀ x, (W i x → load (body i b) x = val x) ∧ (¬ W i x → load (body i b) x = load b x))
    (b : Buf) (hb : b.size = sz) :
    (loopFrom body n lo b).size = sz ∧
    ∀ x, ((∃ k : Nat, k < n ∧ W (lo + k) x) → load (loopFrom body n lo b) x = val x) ∧
      ((¬ ∃ k : Nat, k < n ∧ W (lo + k) x) → load (loopFrom body n lo b) x = load b x) := by
  refine loopFrom_inv body n
    (fun m t => t.size = sz ∧
      ∀ x, ((∃ k : Nat, k < m ∧ W (lo + k) x) → load t x = val x) ∧
        ((¬ ∃ k : Nat, k < m ∧ W (lo + k) x) → load t x = load b x)) lo b ?_ ?_
  · refine ⟨hb, fun x => ⟨?_, fun _ => rfl⟩⟩
    rintro ⟨k, hk, _⟩; omega
  · intro k t hkn ⟨hsz, ih⟩
    have hbk := hbody (lo + k) t (by omega) (by omega) hsz
    refine ⟨hbk.1, fun x => ?_⟩
    have hx := hbk.2 x
    by_cases hw : W (lo + k) x
    · constructor
      · intro _; exact hx.1 hw
      · intro h; exact absurd ⟨k, Nat.lt_succ_self k, hw⟩ h
    · constructor
      · rintro ⟨j, hj, hwj⟩
        rw [hx.2 hw]
        rcases Nat.lt_succ_iff_lt_or_eq.mp hj with h | h
        · exact (ih x).1 ⟨j, h, hwj⟩
        · subst h; exact absurd hwj hw
      · intro h
        rw [hx.2 hw]
        exact (ih x).2 (fun ⟨j, hj, hwj⟩ => h ⟨j, Nat.lt_succ_of_lt hj, hwj⟩)

theorem forLe_writes (sz : Nat) (body : Int → Buf → Buf) (W : Int → Int → Prop)
    (val : Int → ℚ) (lo hi : Int)
    (hbody : ∀ (i : Int) (b : Buf), lo ≤ i → i ≤ hi → b.size = sz →
      (body i b).size = sz ∧
      ∀ x, (W i x → load (body i b) x = val x) ∧ (¬ W i x → load (body i b) x = load b x))
    (b : Buf) (hb : b.size = sz) :
    (forLe lo hi body b).size = sz ∧
    ∀ x, ((∃ i : Int, lo ≤ i ∧ i ≤ hi ∧ W i x) → load (forLe lo hi body b) x = val x) ∧
      ((¬ ∃ i : Int, lo ≤ i ∧ i ≤ hi ∧ W i x) → load (forLe lo hi body b) x = load b x) := by
  have h := loopFrom_writes sz body W val (hi + 1 - lo).toNat lo
    (fun i b h1 h2 hb => hbody i b h1 (by omega) hb) b hb
  refine ⟨h.1, fun x => ⟨?_, ?_⟩⟩
  · rintro ⟨i, h1, h2, hw⟩
    refine (h.2 x).1 ⟨(i - lo).toNat, by omega, ?_⟩
    have e : lo + ((i - lo).toNat : Int) = i := by omega
    rw [e]; exact hw
  · intro hn
    refine (h.2 x).2 ?_
    rintro ⟨k, hk, hw⟩
    exact hn ⟨lo + k, by omega, by omega, hw⟩

theorem forLt_writes (sz : Nat) (body : Int → Buf → Buf) (W : Int → Int → Prop)
    (val : Int → ℚ) (lo hi : Int)
    (hbody : ∀ (i : Int) (b : Buf), lo ≤ i → i < hi → b.size = sz →
      (body i b).size = sz ∧
      ∀ x, (W i x → load (body i b) x = val x) ∧ (¬ W i x → load (body i b) x = load b x))
    (b : Buf) (hb : b.size = sz) :
    (forLt lo hi body b).size = sz ∧
    ∀ x, ((∃ i : Int, lo ≤ i ∧ i < hi ∧ W i x) → load (forLt lo hi body b) x = val x) ∧
      ((¬ ∃ i : Int, lo ≤ i ∧ i < hi ∧ W i x) → load (forLt lo hi body b) x = load b x) := by
  have h := loopFrom_writes sz body W val (hi - lo).toNat lo
    (fun i b h1 h2 hb => hbody i b h1 (by omega) hb) b hb
  refine ⟨h.1, fun x => ⟨?_, ?_⟩⟩
  · rintro ⟨i, h1, h2, hw⟩
    refine (h.2 x).1 ⟨(i - lo).toNat, by omega, ?_⟩
    have e : lo + ((i - lo).toNat : Int) = i := by omega
    rw [e]; exact hw
  · intro hn
    refine (h.2 x).2 ?_
    rintro ⟨k, hk, hw⟩
    exact hn ⟨lo + k, by omega, by omega, hw⟩

/-- One `store` in the shape the loop lemmas ask for. -/
theorem store_writes (sz : Nat) (idx : Int) (v : ℚ) (val : Int → ℚ) (hv : v = val idx)
    (b : Buf) (hb : b.size = sz) :
    (store b idx v).size = sz ∧
    ∀ x, ((x = idx ∧ 0 ≤ x ∧ x < (sz : Int)) → load (store b idx v) x = val x) ∧
      ((¬ (x = idx ∧ 0 ≤ x ∧ x < (sz : Int))) → load (store b idx v) x = load b x) := by
  refine ⟨by rw [size_store, hb], fun x => ⟨?_, ?_⟩⟩
  · rintro ⟨h, h0, h1⟩
    subst h
    rw [load_store_eq b x v h0 (by rw [hb]; exact h1), hv]
  · intro h
    by_cases hx : x = idx
    · subst hx
      exact load_store_outside b x x v (by rw [hb]; tauto)
    · exact load_store_ne b idx x v hx

/-! ## What the grid operations write -/

theorem update_writes (nx ny : Int) (u1 u2 : Buf) :
    (update nx ny u1 u2).size = u2.size ∧
    ∀ x : Int,
      ((∃ i j : Int, 1 ≤ i ∧ i ≤ nx - 2 ∧ 1 ≤ j ∧ j ≤ ny - 2 ∧
          (x = i * ny + j ∧ 0 ≤ x ∧ x < (u2.size : Int))) →
        load (update nx ny u1 u2) x =
          load u1 x + params.cx * (load u1 (x + ny) + load u1 (x - ny) - 2 * load u1 x)
            + params.cy * (load u1 (x + 1) + load u1 (x - 1) - 2 * load u1 x)) ∧
      ((¬ ∃ i j : Int, 1 ≤ i ∧ i ≤ nx - 2 ∧ 1 ≤ j ∧ j ≤ ny - 2 ∧
          (x = i * ny + j ∧ 0 ≤ x ∧ x < (u2.size : Int))) →
        load (update nx ny u1 u2) x = load u2 x) := by
  have h := forLe_writes u2.size
    (fun ix u2 => forLe 1 (ny - 2) (fun iy u2 =>
      store u2 (ix * ny + iy)
        (load u1 (ix * ny + iy)
          + params.cx * (load u1 ((ix + 1) * ny + iy) + load u1 ((ix - 1) * ny + iy)
              - 2 * load u1 (ix * ny + iy))
          + params.cy * (load u1 (ix * ny + iy + 1) + load u1 (ix * ny + iy - 1)
              - 2 * load u1 (ix * ny + iy)))) u2)
    (fun i x => ∃ j : Int, 1 ≤ j ∧ j ≤ ny - 2 ∧
      (x = i * ny + j ∧ 0 ≤ x ∧ x < (u2.size : Int)))
    (fun x => load u1 x + params.cx * (load u1 (x + ny) + load u1 (x - ny) - 2 * load u1 x)
          + params.cy * (load u1 (x + 1) + load u1 (x - 1) - 2 * load u1 x))
    1 (nx - 2)
    (by
      intro i b _ _ hb
      exact forLe_writes u2.size (fun iy u2 =>
          store u2 (i * ny + iy)
            (load u1 (i * ny + iy)
              + params.cx * (load u1 ((i + 1) * ny + iy) + load u1 ((i - 1) * ny + iy)
                  - 2 * load u1 (i * ny + iy))
              + params.cy * (load u1 (i * ny + iy + 1) + load u1 (i * ny + iy - 1)
                  - 2 * load u1 (i * ny + iy))))
        (fun j x => x = i * ny + j ∧ 0 ≤ x ∧ x < (u2.size : Int))
        (fun x => load u1 x
          + params.cx * (load u1 (x + ny) + load u1 (x - ny) - 2 * load u1 x)
          + params.cy * (load u1 (x + 1) + load u1 (x - 1) - 2 * load u1 x))
        1 (ny - 2)
        (fun j b _ _ hb => store_writes u2.size (i * ny + j) _
          (fun x => load u1 x
            + params.cx * (load u1 (x + ny) + load u1 (x - ny) - 2 * load u1 x)
            + params.cy * (load u1 (x + 1) + load u1 (x - 1) - 2 * load u1 x)) (by
          have e1 : (i + 1) * ny + j = i * ny + j + ny := by ring
          have e2 : (i - 1) * ny + j = i * ny + j - ny := by ring
          rw [e1, e2]) b hb) b hb)
    u2 rfl
  refine ⟨h.1, fun x => ⟨?_, ?_⟩⟩
  · rintro ⟨i, j, h1, h2, h3, h4, h5⟩
    exact (h.2 x).1 ⟨i, h1, h2, j, h3, h4, h5⟩
  · intro hn
    exact (h.2 x).2 (fun ⟨i, h1, h2, j, h3, h4, h5⟩ => hn ⟨i, j, h1, h2, h3, h4, h5⟩)

theorem combine_writes (segMatrix tarMatrix : Buf) (startRow endRow : Int) :
    (combine segMatrix tarMatrix startRow endRow).size = tarMatrix.size ∧
    ∀ x : Int,
      ((∃ i j : Int, 1 ≤ i ∧ i ≤ endRow - startRow - 1 ∧ 1 ≤ j ∧ j < YDIM - 1 ∧
          (x = (startRow + i) * YDIM + j ∧ 0 ≤ x ∧ x < (tarMatrix.size : Int))) →
        load (combine segMatrix tarMatrix startRow endRow) x
          = load segMatrix (x - startRow * YDIM)) ∧
      ((¬ ∃ i j : Int, 1 ≤ i ∧ i ≤ endRow - startRow - 1 ∧ 1 ≤ j ∧ j < YDIM - 1 ∧
          (x = (startRow + i) * YDIM + j ∧ 0 ≤ x ∧ x < (tarMatrix.size : Int))) →
        load (combine segMatrix tarMatrix startRow endRow) x = load tarMatrix x) := by
  have h := forLe_writes tarMatrix.size
    (fun i tarMatrix => forLt 1 (YDIM - 1) (fun j tarMatrix =>
      store tarMatrix ((startRow + i) * YDIM + j) (load segMatrix (i * YDIM + j))) tarMatrix)
    (fun i x => ∃ j : Int, 1 ≤ j ∧ j < YDIM - 1 ∧
      (x = (startRow + i) * YDIM + j ∧ 0 ≤ x ∧ x < (tarMatrix.size : Int)))
    (fun x => load segMatrix (x - startRow * YDIM))
    1 (endRow - startRow - 1)
    (by
      intro i b _ _ hb
      exact forLt_writes tarMatrix.size (fun j tarMatrix =>
          store tarMatrix ((startRow + i) * YDIM + j) (load segMatrix (i * YDIM + j)))
        (fun j x => x = (startRow + i) * YDIM + j ∧ 0 ≤ x ∧ x < (tarMatrix.size : Int))
        (fun x => load segMatrix (x - startRow * YDIM))
        1 (YDIM - 1)
        (fun j b _ _ hb => store_writes tarMatrix.size ((startRow + i) * YDIM + j)
          (load segMatrix (i * YDIM + j))
          (fun x => load segMatrix (x - startRow * YDIM)) (by
          have e : (startRow + i) * YDIM + j - startRow * YDIM = i * YDIM + j := by ring
          simp only [e]) b hb) b hb)
    tarMatrix rfl
  refine ⟨h.1, fun x => ⟨?_, ?_⟩⟩
  · rintro ⟨i, j, h1, h2, h3, h4, h5⟩
    exact (h.2 x).1 ⟨i, h1, h2, j, h3, h4, h5⟩
  · intro hn
    exact (h.2 x).2 (fun ⟨i, h1, h2, j, h3, h4, h5⟩ => hn ⟨i, j, h1, h2, h3, h4, h5⟩)

theorem split_writes (fMat splitMat : Buf) (startRow endRow : Int) :
    (split fMat splitMat startRow endRow).size = splitMat.size ∧
    ∀ x : Int,
      ((∃ ix iy : Int, 0 ≤ ix ∧ ix < endRow - startRow + 1 ∧ 0 ≤ iy ∧ iy < XDIM ∧
          (x = ix * XDIM + iy ∧ 0 ≤ x ∧ x < (splitMat.size : Int))) →
        load (split fMat splitMat startRow endRow) x = load fMat (x + startRow * XDIM)) ∧
      ((¬ ∃ ix iy : Int, 0 ≤ ix ∧ ix < endRow - startRow + 1 ∧ 0 ≤ iy ∧ iy < XDIM ∧
          (x = ix * XDIM + iy ∧ 0 ≤ x ∧ x < (splitMat.size : Int))) →
        load (split fMat splitMat startRow endRow) x = load splitMat x) := by
  have h := forLt_writes splitMat.size
    (fun ix splitMat => forLt 0 XDIM (fun iy splitMat =>
      store splitMat (ix * XDIM + iy) (load fMat ((startRow + ix) * XDIM + iy))) splitMat)
    (fun ix x => ∃ iy : Int, 0 ≤ iy ∧ iy < XDIM ∧
      (x = ix * XDIM + iy ∧ 0 ≤ x ∧ x < (splitMat.size : Int)))
    (fun x => load fMat (x + startRow * XDIM))
    0 (endRow - startRow + 1)
    (by
      intro i b _ _ hb
      exact forLt_writes splitMat.size (fun iy splitMat =>
          store splitMat (i * XDIM + iy) (load fMat ((startRow + i) * XDIM + iy)))
        (fun j x => x = i * XDIM + j ∧ 0 ≤ x ∧ x < (splitMat.size : Int))
        (fun x => load fMat (x + startRow * XDIM))
        0 XDIM
        (fun j b _ _ hb => store_writes splitMat.size (i * XDIM + j)
          (load fMat ((startRow + i) * XDIM + j))
          (fun x => load fMat (x + startRow * XDIM)) (by
          have e : i * XDIM + j + startRow * XDIM = (startRow + i) * XDIM + j := by ring
          simp only [e]) b hb) b hb)
    splitMat rfl
  refine ⟨h.1, fun x => ⟨?_, ?_⟩⟩
  · rintro ⟨i, j, h1, h2, h3, h4, h5⟩
    exact (h.2 x).1 ⟨i, h1, h2, j, h3, h4, h5⟩
  · intro hn
    exact (h.2 x).2 (fun ⟨i, h1, h2, j, h3, h4, h5⟩ => hn ⟨i, j, h1, h2, h3, h4, h5⟩)

/-! ## The stencil kernel, `split` and `combine` -/

/-- C1: for every `nx`, `ny`, every input block `u1`, every output block `u2` of
`nx*ny` cells and every interior cell `(i, j)` with `1 ≤ i ≤ nx-2` and
`1 ≤ j ≤ ny-2`, the block that `update` returns holds at offset `i*ny+j` the value
`u1[i,j] + cx*(u1[i+1,j] + u1[i-1,j] - 2*u1[i,j]) + cy*(u1[i,j+1] + u1[i,j-1] - 2*u1[i,j])`,
in exact rational arithmetic. -/
theorem update_interior (nx ny : Int) (u1 u2 : Buf) (i j : Int)
    (hsz : (u2.size : Int) = nx * ny)
    (hi1 : 1 ≤ i) (hi2 : i ≤ nx - 2) (hj1 : 1 ≤ j) (hj2 : j ≤ ny - 2) :
    load (update nx ny u1 u2) (i * ny + j) =
      load u1 (i * ny + j)
        + params.cx * (load u1 ((i + 1) * ny + j) + load u1 ((i - 1) * ny + j)
            - 2 * load u1 (i * ny + j))
        + params.cy * (load u1 (i * ny + (j + 1)) + load u1 (i * ny + (j - 1))
            - 2 * load u1 (i * ny + j)) := by
  have hlo : 0 ≤ i * ny + j := by nlinarith
  have hhi : i * ny + j < (u2.size : Int) := by rw [hsz]; nlinarith
  rw [((update_writes nx ny u1 u2).2 (i * ny + j)).1
    ⟨i, j, hi1, hi2, hj1, hj2, rfl, hlo, hhi⟩]
  have e1 : (i + 1) * ny + j = i * ny + j + ny := by ring
  have e2 : (i - 1) * ny + j = i * ny + j - ny := by ring
  have e3 : i * ny + (j + 1) = i * ny + j + 1 := by ring
  have e4 : i * ny + (j - 1) = i * ny + j - 1 := by ring
  rw [e1, e2, e3, e4]

/-- Witness for C1: the centre cell of a 3 x 3 block. -/
theorem update_interior_witness :
    (((callocBuf 9).size : Int) = 3 * 3 ∧ (1 : Int) ≤ 1 ∧ (1 : Int) ≤ 3 - 2) ∧
    load (update 3 3 #[0, 1, 2, 3, 4, 5, 6, 7, 8] (callocBuf 9)) (1 * 3 + 1) =
      load #[0, 1, 2, 3, 4, 5, 6, 7, 8] (1 * 3 + 1)
        + params.cx * (load #[0, 1, 2, 3, 4, 5, 6, 7, 8] ((1 + 1) * 3 + 1)
            + load #[0, 1, 2, 3, 4, 5, 6, 7, 8] ((1 - 1) * 3 + 1)
            - 2 * load #[0, 1, 2, 3, 4, 5, 6, 7, 8] (1 * 3 + 1))
        + params.cy * (load #[0, 1, 2, 3, 4, 5, 6, 7, 8] (1 * 3 + (1 + 1))
            + load #[0, 1, 2, 3, 4, 5, 6, 7, 8] (1 * 3 + (1 - 1))
            - 2 * load #[0, 1, 2, 3, 4, 5, 6, 7, 8] (1 * 3 + 1)) :=
  ⟨⟨by decide, by decide, by decide⟩,
    update_interior 3 3 #[0, 1, 2, 3, 4, 5, 6, 7, 8] (callocBuf 9) 1 1 (by decide)
      (by decide) (by decide) (by decide) (by decide)⟩

/-- C4: for a full grid of `XDIM*YDIM` cells and a range with
`0 ≤ startRow ≤ endRow < XDIM`, `combine block fullGrid startRow endRow` puts
`block[i, j]` at `fullGrid[startRow+i, j]` for exactly the local rows
`1 ≤ i ≤ endRow-startRow-1` and columns `1 ≤ j ≤ YDIM-2`; every other cell of
`fullGrid` keeps its value, in particular the rows `startRow` and `endRow` and the
columns `0` and `YDIM-1`; the grid keeps its size. -/
theorem combine_frame (block fullGrid : Buf) (startRow endRow : Int)
    (hsz : (fullGrid.size : Int) = XDIM * YDIM)
    (h0 : 0 ≤ startRow) (h1 : startRow ≤ endRow) (h2 : endRow < XDIM) :
    (combine block fullGrid startRow endRow).size = fullGrid.size ∧
    (∀ i j : Int, 1 ≤ i → i ≤ endRow - startRow - 1 → 1 ≤ j → j ≤ YDIM - 2 →
      load (combine block fullGrid startRow endRow) ((startRow + i) * YDIM + j)
        = load block (i * YDIM + j)) ∧
    (∀ x : Int,
      (¬ ∃ i j : Int, 1 ≤ i ∧ i ≤ endRow - startRow - 1 ∧ 1 ≤ j ∧ j ≤ YDIM - 2 ∧
        x = (startRow + i) * YDIM + j) →
      load (combine block fullGrid startRow endRow) x = load fullGrid x) ∧
    (∀ j : Int, 0 ≤ j → j ≤ YDIM - 1 →
      load (combine block fullGrid startRow endRow) (startRow * YDIM + j)
          = load fullGrid (startRow * YDIM + j) ∧
      load (combine block fullGrid startRow endRow) (endRow * YDIM + j)
          = load fullGrid (endRow * YDIM + j)) ∧
    (∀ r : Int,
      load (combine block fullGrid startRow endRow) (r * YDIM + 0)
          = load fullGrid (r * YDIM + 0) ∧
      load (combine block fullGrid startRow endRow) (r * YDIM + (YDIM - 1))
          = load fullGrid (r * YDIM + (YDIM - 1))) := by
  have hw := combine_writes block fullGrid startRow endRow
  refine ⟨hw.1, ?_, ?_, ?_, ?_⟩
  · intro i j h3 h4 h5 h6
    rw [(hw.2 _).1 ⟨i, j, h3, h4, h5, by omega, rfl,
      by simp only [YDIM] at *; omega, by simp only [XDIM, YDIM] at *; omega⟩]
    congr 1; ring
  · intro x hx
    refine (hw.2 x).2 ?_
    rintro ⟨i, j, h3, h4, h5, h6, h7, _, _⟩
    exact hx ⟨i, j, h3, h4, h5, by omega, h7⟩
  · intro j hj0 hj1
    constructor
    · refine (hw.2 _).2 ?_
      rintro ⟨i, j2, h3, h4, h5, h6, h7, _, _⟩
      simp only [YDIM] at *
      omega
    · refine (hw.2 _).2 ?_
      rintro ⟨i, j2, h3, h4, h5, h6, h7, _, _⟩
      simp only [YDIM] at *
      omega
  · intro r
    constructor
    · refine (hw.2 _).2 ?_
      rintro ⟨i, j2, h3, h4, h5, h6, h7, _, _⟩
      simp only [YDIM] at *
      omega
    · refine (hw.2 _).2 ?_
      rintro ⟨i, j2, h3, h4, h5, h6, h7, _, _⟩
      simp only [YDIM] at *
      omega

/-- Witness for C4: a zero grid and the range `(0, 3)`. -/
theorem combine_frame_witness :
    (((callocBuf (XDIM * YDIM)).size : Int) = XDIM * YDIM ∧ (0 : Int) ≤ 0 ∧ (0 : Int) ≤ 3 ∧
      (3 : Int) < XDIM) ∧
    ∀ i j : Int, 1 ≤ i → i ≤ 3 - 0 - 1 → 1 ≤ j → j ≤ YDIM - 2 →
      load (combine (callocBuf 400) (callocBuf (XDIM * YDIM)) 0 3) ((0 + i) * YDIM + j)
        = load (callocBuf 400) (i * YDIM + j) :=
  ⟨⟨by simp [size_callocBuf, XDIM, YDIM], by decide, by decide, by decide⟩,
    (combine_frame (callocBuf 400) (callocBuf (XDIM * YDIM)) 0 3
      (by simp [size_callocBuf, XDIM, YDIM]) (by decide) (by decide) (by decide)).2.1⟩

/-- C5: for a block with room for `endRow-startRow+1` rows of `YDIM` cells, the
block that `split fullGrid block startRow endRow` returns holds
`fullGrid[startRow+i, j]` at `[i, j]` for every local row `0 ≤ i ≤ endRow-startRow`
and every column `0 ≤ j ≤ YDIM-1`, in particular for every range with
`0 ≤ startRow ≤ endRow < XDIM`.  `split` returns the block alone: it reads
`fullGrid` and has no way to change it. -/
theorem split_copies (fullGrid block : Buf) (startRow endRow : Int)
    (hsz : (endRow - startRow + 1) * YDIM ≤ (block.size : Int)) :
    ∀ i j : Int, 0 ≤ i → i ≤ endRow - startRow → 0 ≤ j → j ≤ YDIM - 1 →
      load (split fullGrid block startRow endRow) (i * YDIM + j)
        = load fullGrid ((startRow + i) * YDIM + j) := by
  intro i j h1 h2 h3 h4
  have hXY : XDIM = YDIM := rfl
  rw [((split_writes fullGrid block startRow endRow).2 _).1
    ⟨i, j, h1, by omega, h3, by rw [hXY]; omega, by rw [hXY],
      by simp only [YDIM] at *; omega, by simp only [YDIM] at *; omega⟩]
  congr 1; rw [hXY]; ring

/-- Witness for C5: rows `2 .. 4` of a grid into a block of three rows. -/
theorem split_copies_witness :
    ((4 - 2 + 1) * YDIM ≤ ((callocBuf 300).size : Int)) ∧
    ∀ i j : Int, 0 ≤ i → i ≤ 4 - 2 → 0 ≤ j → j ≤ YDIM - 1 →
      load (split (initdata XDIM YDIM (callocBuf (XDIM * YDIM))) (callocBuf 300) 2 4)
          (i * YDIM + j)
        = load (initdata XDIM YDIM (callocBuf (XDIM * YDIM))) ((2 + i) * YDIM + j) :=
  ⟨by simp [size_callocBuf, YDIM],
    split_copies (initdata XDIM YDIM (callocBuf (XDIM * YDIM))) (callocBuf 300) 2 4
      (by simp [size_callocBuf, YDIM])⟩

/-- C6: for a block with room for `b-a+1` rows, a grid `g2` of `XDIM*YDIM` cells and a
range with `0 ≤ a ≤ b < XDIM`, `split g block a b` followed by `combine` of the
resulting block into `g2` over the same range gives a grid that agrees with `g` on
every cell `(r, c)` with `a+1 ≤ r ≤ b-1` and `1 ≤ c ≤ YDIM-2`, and with `g2` on
every other cell. -/
theorem split_combine_roundtrip (g g2 block : Buf) (a b : Int)
    (hblock : (b - a + 1) * YDIM ≤ (block.size : Int))
    (hsz : (g2.size : Int) = XDIM * YDIM)
    (h0 : 0 ≤ a) (h1 : a ≤ b) (h2 : b < XDIM) :
    (∀ r c : Int, a + 1 ≤ r → r ≤ b - 1 → 1 ≤ c → c ≤ YDIM - 2 →
      load (combine (split g block a b) g2 a b) (r * YDIM + c) = load g (r * YDIM + c)) ∧
    (∀ x : Int,
      (¬ ∃ r c : Int, a + 1 ≤ r ∧ r ≤ b - 1 ∧ 1 ≤ c ∧ c ≤ YDIM - 2 ∧ x = r * YDIM + c) →
      load (combine (split g block a b) g2 a b) x = load g2 x) := by
  have hXY : XDIM = YDIM := rfl
  have hc := (combine_writes (split g block a b) g2 a b).2
  have hs := (split_writes g block a b).2
  constructor
  · intro r c h3 h4 h5 h6
    have e : r * YDIM + c = (a + (r - a)) * YDIM + c := by ring
    rw [(hc _).1 ⟨r - a, c, by omega, by omega, h5, by omega, e,
      by simp only [YDIM] at *; omega, by simp only [XDIM, YDIM] at *; omega⟩]
    rw [(hs _).1 ⟨r - a, c, by omega, by omega, by omega, by rw [hXY]; omega,
      by rw [hXY]; ring, by simp only [YDIM] at *; omega, by simp only [YDIM] at *; omega⟩]
    congr 1; rw [hXY]; ring
  · intro x hx
    refine (hc x).2 ?_
    rintro ⟨i, j, h3, h4, h5, h6, h7, _, _⟩
    exact hx ⟨a + i, j, by omega, by omega, h5, by omega, h7⟩

/-- Witness for C6: rows `2 .. 4` of the initial grid into a zero grid. -/
theorem split_combine_roundtrip_witness :
    ((4 - 2 + 1) * YDIM ≤ ((callocBuf 300).size : Int) ∧
      ((callocBuf (XDIM * YDIM)).size : Int) = XDIM * YDIM ∧ (0 : Int) ≤ 2 ∧ (2 : Int) ≤ 4 ∧
      (4 : Int) < XDIM) ∧
    ∀ r c : Int, 2 + 1 ≤ r → r ≤ 4 - 1 → 1 ≤ c → c ≤ YDIM - 2 →
      load (combine (split (initdata XDIM YDIM (callocBuf (XDIM * YDIM))) (callocBuf 300) 2 4)
          (callocBuf (XDIM * YDIM)) 2 4) (r * YDIM + c)
        = load (initdata XDIM YDIM (callocBuf (XDIM * YDIM))) (r * YDIM + c) :=
  ⟨⟨by simp [size_callocBuf, YDIM], by simp [size_callocBuf, XDIM, YDIM], by decide,
      by decide, by decide⟩,
    (split_combine_roundtrip (initdata XDIM YDIM (callocBuf (XDIM * YDIM))) (callocBuf
      (XDIM * YDIM)) (callocBuf 300) 2 4 (by simp [size_callocBuf, YDIM])
      (by simp [size_callocBuf, XDIM, YDIM]) (by decide) (by decide) (by decide)).1⟩

/-! ## The partition -/

theorem splitSizeI_spec (numtasks : Int) (h : 2 ≤ numtasks) :
    3 ≤ splitSizeI numtasks ∧ splitSizeI numtasks ≤ XDIM ∧
      XDIM - 2 ≤ (splitSizeI numtasks - 2) * (numtasks - 1) := by
  have hN : (0 : ℚ) < ((numtasks - 1 : Int) : ℚ) := by
    have : (0 : Int) < numtasks - 1 := by omega
    exact_mod_cast this
  have hpos : (0 : ℚ) < splitSizeD numtasks := by
    unfold splitSizeD XDIM
    apply div_pos _ hN
    norm_num
  have hc1 : 0 < Int.ceil (splitSizeD numtasks) := Int.ceil_pos.mpr hpos
  have hc2 : splitSizeD numtasks ≤ (Int.ceil (splitSizeD numtasks) : ℚ) := Int.le_ceil _
  have hc3 : (XDIM : ℚ) ≤ (Int.ceil (splitSizeD numtasks) : ℚ) * ((numtasks - 1 : Int) : ℚ) := by
    have := (div_le_iff₀ hN).mp hc2
    exact this
  have hc4 : XDIM ≤ Int.ceil (splitSizeD numtasks) * (numtasks - 1) := by
    exact_mod_cast hc3
  unfold splitSizeI
  simp only []
  split
  · refine ⟨by simp [XDIM], le_refl _, ?_⟩
    simp only [XDIM]
    nlinarith
  · rename_i hgt
    refine ⟨by omega, by omega, ?_⟩
    have e : Int.ceil (splitSizeD numtasks) + 2 - 2 = Int.ceil (splitSizeD numtasks) := by ring
    rw [e]
    omega

theorem length_cells (buf : Buf) (count : Int) : (cells buf count).length = count.toNat := by
  simp [cells]

theorem partitionLoop_tiles (src : Buf) (numRows : Int) (hn : 1 ≤ numRows) :
    ∀ (fuel : Nat) (rowi nodei : Int) (b : Buf), XDIM - 2 - rowi ≤ (fuel : Int) →
      ∃ n b2 ms, partitionLoop src numRows fuel rowi nodei b = some (n, b2, ms) ∧
        n = nodei + (ms.length : Int) ∧ b2.size = b.size ∧ Tiles numRows rowi nodei ms := by
  intro fuel
  induction fuel with
  | zero =>
    intro rowi nodei b hf
    have h : ¬ rowi < XDIM - 2 := by simp at hf; omega
    exact ⟨nodei, b, [], by simp [partitionLoop, h], by simp, rfl, h⟩
  | succ fuel ih =>
    intro rowi nodei b hf
    by_cases h : rowi < XDIM - 2
    · obtain ⟨n, b2, ms, h1, h2, h3, h4⟩ := ih (rowi + numRows) (nodei + 1)
        (split src b rowi (if rowi + numRows + 1 ≥ YDIM then YDIM - 1 else rowi + numRows + 1))
        (by push_cast at hf; omega)
      refine ⟨n, b2,
        ⟨nodei, rowi, if rowi + numRows + 1 ≥ YDIM then YDIM - 1 else rowi + numRows + 1,
          cells (split src b rowi
              (if rowi + numRows + 1 ≥ YDIM then YDIM - 1 else rowi + numRows + 1))
            (((if rowi + numRows + 1 ≥ YDIM then YDIM - 1 else rowi + numRows + 1) - rowi + 1)
              * XDIM)⟩ :: ms,
        by simp only [partitionLoop, h, if_true, h1], ?_, ?_, ?_⟩
      · simp only [List.length_cons]; push_cast; omega
      · rw [h3, (split_writes _ _ _ _).1]
      · exact ⟨h, rfl, rfl, rfl, length_cells _ _, h4⟩
    · exact ⟨nodei, b, [], by simp [partitionLoop, h], by simp, rfl, h⟩

theorem tiles_mem (numRows : Int) (hn : 1 ≤ numRows) :
    ∀ (ms : List Msg) (rowi nodei : Int), 0 ≤ rowi → Tiles numRows rowi nodei ms →
      ∀ m ∈ ms, rowi ≤ m.startRow ∧ m.startRow < XDIM - 2 ∧ m.startRow + 2 ≤ m.endRow ∧
        m.endRow ≤ XDIM - 1 ∧ m.endRow ≤ m.startRow + numRows + 1 ∧ nodei ≤ m.rank ∧
        m.payload.length = ((m.endRow - m.startRow + 1) * XDIM).toNat := by
  intro ms
  induction ms with
  | nil => intro _ _ _ _ m hm; simp at hm
  | cons a ms ih =>
    intro rowi nodei h0 ht m hm
    obtain ⟨h1, h2, h3, h4, h5, h6⟩ := ht
    rcases List.mem_cons.mp hm with rfl | hm
    · refine ⟨by omega, by omega, ?_, ?_, ?_, by omega, h5⟩
      · rw [h4, h3]; simp only [XDIM, YDIM] at *; split <;> omega
      · rw [h4]; simp only [XDIM, YDIM] at *; split <;> omega
      · rw [h4, h3]; simp only [XDIM, YDIM] at *; split <;> omega
    · have := ih (rowi + numRows) (nodei + 1) (by omega) h6 m hm
      refine ⟨by omega, this.2.1, this.2.2.1, this.2.2.2.1, this.2.2.2.2.1, by omega,
        this.2.2.2.2.2.2⟩

theorem tiles_cover (numRows : Int) (hn : 1 ≤ numRows) :
    ∀ (ms : List Msg) (rowi nodei : Int), 0 ≤ rowi → Tiles numRows rowi nodei ms →
      ∀ r : Int, (rowi + 1 ≤ r ∧ r ≤ XDIM - 2) ↔
        ∃ m ∈ ms, m.startRow + 1 ≤ r ∧ r ≤ m.endRow - 1 := by
  intro ms
  induction ms with
  | nil =>
    intro rowi nodei _ ht r
    simp only [Tiles] at ht
    simp only [List.not_mem_nil, false_and, exists_false, iff_false]
    omega
  | cons a ms ih =>
    intro rowi nodei h0 ht r
    obtain ⟨h1, h2, h3, h4, h5, h6⟩ := ht
    have ih2 := ih (rowi + numRows) (nodei + 1) (by omega) h6 r
    simp only [List.mem_cons, exists_eq_or_imp]
    rw [← ih2, h3, h4]
    simp only [XDIM, YDIM] at *
    split <;> omega

theorem tiles_pairwise (numRows : Int) (hn : 1 ≤ numRows) :
    ∀ (ms : List Msg) (rowi nodei : Int), 0 ≤ rowi → Tiles numRows rowi nodei ms →
      ms.Pairwise (fun m1 m2 => m1.endRow - 1 < m2.startRow + 1 ∧ m1.rank < m2.rank) := by
  intro ms
  induction ms with
  | nil => intro _ _ _ _; exact List.Pairwise.nil
  | cons a ms ih =>
    intro rowi nodei h0 ht
    have hall := tiles_mem numRows hn ms (rowi + numRows) (nodei + 1) (by omega) ht.2.2.2.2.2
    obtain ⟨h1, h2, h3, h4, h5, h6⟩ := ht
    refine List.Pairwise.cons ?_ (ih (rowi + numRows) (nodei + 1) (by omega) h6)
    intro m hm
    have := hall m hm
    refine ⟨?_, by omega⟩
    rw [h4]; simp only [XDIM, YDIM] at *; split <;> omega

theorem tiles_chain (numRows : Int) (hn : 1 ≤ numRows) :
    ∀ (ms : List Msg) (rowi nodei : Int), 0 ≤ rowi → Tiles numRows rowi nodei ms →
      ms.Chain' (fun m1 m2 => m2.startRow + 1 = m1.endRow ∧ m2.rank = m1.rank + 1 ∧
        m1.endRow + 1 ≤ m2.endRow ∧ m1.startRow + 1 ≤ m2.startRow) := by
  intro ms
  induction ms with
  | nil => intro _ _ _ _; exact List.chain'_nil
  | cons a ms ih =>
    intro rowi nodei h0 ht
    obtain ⟨h1, h2, h3, h4, h5, h6⟩ := ht
    rw [List.chain'_cons']
    refine ⟨?_, ih (rowi + numRows) (nodei + 1) (by omega) h6⟩
    intro m hm
    cases ms with
    | nil => simp at hm
    | cons c ms =>
      simp only [List.head?_cons, Option.mem_def, Option.some.injEq] at hm
      subst hm
      obtain ⟨g1, g2, g3, g4, _, _⟩ := h6
      rw [g3, g2, h4, h2, g4, h3]
      simp only [XDIM, YDIM] at *
      refine ⟨by split <;> omega, trivial, ?_, by omega⟩
      split <;> split <;> omega

theorem tiles_ranks (numRows : Int) :
    ∀ (ms : List Msg) (rowi nodei : Int), Tiles numRows rowi nodei ms →
      ms.map (fun m => m.rank) = (List.range ms.length).map (fun (k : Nat) => nodei + (k : Int)) := by
  intro ms
  induction ms with
  | nil => intro _ _ _; rfl
  | cons a ms ih =>
    intro rowi nodei ht
    obtain ⟨h1, h2, h3, h4, h5, h6⟩ := ht
    rw [List.map_cons, List.length_cons, List.range_succ_eq_map, List.map_cons, List.map_map,
      ih (rowi + numRows) (nodei + 1) h6, h2]
    simp only [Nat.cast_zero, add_zero, List.cons.injEq, true_and]
    apply List.map_congr_left
    intro k _
    simp only [Function.comp, Nat.cast_succ]
    ring

theorem tiles_length (numRows : Int) :
    ∀ (ms : List Msg) (rowi nodei : Int), Tiles numRows rowi nodei ms → ms ≠ [] →
      ((ms.length : Int) - 1) * numRows < XDIM - 2 - rowi := by
  intro ms
  induction ms with
  | nil => intro _ _ _ h; exact absurd rfl h
  | cons a ms ih =>
    intro rowi nodei ht _
    obtain ⟨h1, h2, h3, h4, h5, h6⟩ := ht
    cases ms with
    | nil => simp; omega
    | cons c ms =>
      have := ih (rowi + numRows) (nodei + 1) h6 (by simp)
      simp only [List.length_cons] at this ⊢
      push_cast at this ⊢
      linarith

theorem partition_tiles (numtasks it : Int) (m : Master) (h : 2 ≤ numtasks) :
    ∃ n b rs, partition numtasks it m = some (n, b, rs) ∧ n = 1 + (rs.length : Int) ∧
      b.size = m.broken_u_a.size ∧ Tiles (splitSizeI numtasks - 2) 0 1 rs ∧
      (rs.length : Int) ≤ numtasks - 1 := by
  obtain ⟨hs1, hs2, hs3⟩ := splitSizeI_spec numtasks h
  obtain ⟨n, b, rs, h1, h2, h3, h4⟩ := partitionLoop_tiles (splitSource it m)
    (splitSizeI numtasks - 2) (by omega) XDIM.toNat 0 1 m.broken_u_a (by simp [XDIM])
  refine ⟨n, b, rs, h1, h2, h3, h4, ?_⟩
  by_cases hnil : rs = []
  · subst hnil; simp; omega
  · have hl := tiles_length _ rs 0 1 h4 hnil
    by_contra hgt
    have h5 : numtasks - 1 ≤ (rs.length : Int) - 1 := by omega
    have h6 : (numtasks - 1) * (splitSizeI numtasks - 2)
        ≤ ((rs.length : Int) - 1) * (splitSizeI numtasks - 2) :=
      mul_le_mul_of_nonneg_right h5 (by omega)
    have h7 : (splitSizeI numtasks - 2) * (numtasks - 1)
        = (numtasks - 1) * (splitSizeI numtasks - 2) := mul_comm _ _
    omega

theorem loopFrom_append {α : Type} (f : Int → α) :
    ∀ (n : Nat) (lo : Int) (out : List α),
      loopFrom (fun i out => out ++ [f i]) n lo out
        = out ++ (List.range n).map (fun (k : Nat) => f (lo + (k : Int))) := by
  intro n
  induction n with
  | zero => intro lo out; simp [loopFrom]
  | succ n ih =>
    intro lo out
    rw [loopFrom, ih, List.range_succ_eq_map, List.map_cons, List.map_map, List.append_assoc]
    simp only [List.singleton_append, Nat.cast_zero, add_zero, List.append_cancel_left_eq,
      List.cons.injEq, true_and]
    apply List.map_congr_left
    intro k _
    simp only [Function.comp, Nat.cast_succ]
    congr 1; ring

theorem sentinelLoop_eq (numtasks nodei : Int) (b : Buf) :
    sentinelLoop numtasks nodei b
      = (List.range (numtasks - nodei).toNat).map
          (fun (k : Nat) => (⟨nodei + (k : Int), 0, 0, []⟩ : Msg)) := by
  unfold sentinelLoop forLt
  have hc : cells b 0 = [] := by simp [cells]
  simp only [hc]
  rw [loopFrom_append (fun i => (⟨i, 0, 0, []⟩ : Msg))]
  simp

/-- C2: for every process count `numtasks ≥ 2`, every timestep `it` and every
coordinator state, the partition loop ends and the interior rows
`startRow+1 .. endRow-1` of the ranges it sends cover exactly `1 .. XDIM-2`: a row
is interior to some range iff it lies in `1 .. XDIM-2`; the interiors are non-empty,
pairwise disjoint and increasing with the rank; and the interior of each range
starts right after the interior of the range before it. -/
theorem partition_coverage (numtasks it : Int) (m : Master) (h : 2 ≤ numtasks) :
    ∃ n b rs, partition numtasks it m = some (n, b, rs) ∧
      (∀ r : Int, (1 ≤ r ∧ r ≤ XDIM - 2) ↔
        ∃ msg ∈ rs, msg.startRow + 1 ≤ r ∧ r ≤ msg.endRow - 1) ∧
      rs.Pairwise (fun m1 m2 => m1.endRow - 1 < m2.startRow + 1 ∧ m1.rank < m2.rank) ∧
      rs.Chain' (fun m1 m2 => m2.startRow + 1 = (m1.endRow - 1) + 1 ∧
        m2.rank = m1.rank + 1) ∧
      (∀ msg ∈ rs, msg.startRow + 1 ≤ msg.endRow - 1) := by
  obtain ⟨hs1, _, _⟩ := splitSizeI_spec numtasks h
  have hn : 1 ≤ splitSizeI numtasks - 2 := by omega
  obtain ⟨n, b, rs, h1, _, _, h4, _⟩ := partition_tiles numtasks it m h
  refine ⟨n, b, rs, h1, ?_, tiles_pairwise _ hn rs 0 1 (le_refl 0) h4, ?_, ?_⟩
  · intro r
    have := tiles_cover _ hn rs 0 1 (le_refl 0) h4 r
    simpa using this
  · refine List.Chain'.imp ?_ (tiles_chain _ hn rs 0 1 (le_refl 0) h4)
    intro a c hac
    exact ⟨by omega, hac.2.1⟩
  · intro msg hmsg
    have := tiles_mem _ hn rs 0 1 (le_refl 0) h4 msg hmsg
    omega

/-- Witness for C2: twelve processes, first timestep. -/
theorem partition_coverage_witness :
    (2 : Int) ≤ 12 ∧
    ∃ n b rs, partition 12 1 (initWorld 12).master = some (n, b, rs) ∧
      (∀ r : Int, (1 ≤ r ∧ r ≤ XDIM - 2) ↔
        ∃ msg ∈ rs, msg.startRow + 1 ≤ r ∧ r ≤ msg.endRow - 1) ∧
      rs.Pairwise (fun m1 m2 => m1.endRow - 1 < m2.startRow + 1 ∧ m1.rank < m2.rank) ∧
      rs.Chain' (fun m1 m2 => m2.startRow + 1 = (m1.endRow - 1) + 1 ∧
        m2.rank = m1.rank + 1) ∧
      (∀ msg ∈ rs, msg.startRow + 1 ≤ msg.endRow - 1) :=
  ⟨by decide, partition_coverage 12 1 (initWorld 12).master (by decide)⟩

theorem dispatch_ranks_aux (numtasks it : Int) (m : Master) (h : 2 ≤ numtasks) :
    ∃ n b rs ss, partition numtasks it m = some (n, b, rs) ∧
      dispatch numtasks it m = some (b, rs ++ ss) ∧
      b.size = m.broken_u_a.size ∧
      Tiles (splitSizeI numtasks - 2) 0 1 rs ∧
      (rs.length : Int) ≤ numtasks - 1 ∧
      (∀ s ∈ ss, s.startRow = 0 ∧ s.endRow = 0 ∧ s.payload = []) ∧
      (rs ++ ss).map (fun msg => msg.rank)
        = (List.range (numtasks - 1).toNat).map (fun (k : Nat) => 1 + (k : Int)) := by
  obtain ⟨n, b, rs, h1, h2, h3, h4, h5⟩ := partition_tiles numtasks it m h
  refine ⟨n, b, rs, sentinelLoop numtasks n b, h1, by unfold dispatch; rw [h1], h3, h4, h5, ?_, ?_⟩
  · intro s hs
    rw [sentinelLoop_eq] at hs
    simp only [List.mem_map] at hs
    obtain ⟨k, _, rfl⟩ := hs
    exact ⟨rfl, rfl, rfl⟩
  · rw [List.map_append, tiles_ranks _ rs 0 1 h4, sentinelLoop_eq, List.map_map]
    have e : (numtasks - 1).toNat = rs.length + (numtasks - n).toNat := by omega
    rw [e, List.range_add, List.map_append, List.map_map]
    congr 1
    apply List.map_congr_left
    intro k _
    simp only [Function.comp]
    rw [h2]; push_cast; ring

/-- C8: for every process count `numtasks ≥ 2`, in every round the partition loop
sends at most `numtasks-1` ranges, none of them `(0, 0)`, to the ranks `1, 2, ..`
in this order; the messages after them carry the range `(0, 0)` and no cells; and
the ranks of all messages of the round, in the order sent, are exactly
`1, 2, .., numtasks-1`.  So every rank in `1 .. numtasks-1` is sent exactly one
message and no message goes to a rank outside `1 .. numtasks-1`. -/
theorem dispatch_one_per_rank (numtasks it : Int) (m : Master) (h : 2 ≤ numtasks) :
    ∃ n b rs ss, partition numtasks it m = some (n, b, rs) ∧
      dispatch numtasks it m = some (b, rs ++ ss) ∧
      (rs.length : Int) ≤ numtasks - 1 ∧
      (∀ msg ∈ rs, ¬ (msg.startRow = 0 ∧ msg.endRow = 0)) ∧
      rs.map (fun msg => msg.rank)
        = (List.range rs.length).map (fun (k : Nat) => 1 + (k : Int)) ∧
      (∀ s ∈ ss, s.startRow = 0 ∧ s.endRow = 0 ∧ s.payload.length = 0) ∧
      (rs ++ ss).map (fun msg => msg.rank)
        = (List.range (numtasks - 1).toNat).map (fun (k : Nat) => 1 + (k : Int)) ∧
      (∀ msg ∈ rs ++ ss, 1 ≤ msg.rank ∧ msg.rank < numtasks) ∧
      (∀ r : Int, 1 ≤ r → r < numtasks →
        ((rs ++ ss).map (fun msg => msg.rank)).count r = 1) := by
  obtain ⟨hs1, _, _⟩ := splitSizeI_spec numtasks h
  have hn : 1 ≤ splitSizeI numtasks - 2 := by omega
  obtain ⟨n, b, rs, ss, h1, h2, _, h4, h5, h6, h7⟩ := dispatch_ranks_aux numtasks it m h
  refine ⟨n, b, rs, ss, h1, h2, h5, ?_, tiles_ranks _ rs 0 1 h4, ?_, h7, ?_, ?_⟩
  · intro msg hmsg
    have := tiles_mem _ hn rs 0 1 (le_refl 0) h4 msg hmsg
    omega
  · intro s hs
    obtain ⟨e1, e2, e3⟩ := h6 s hs
    exact ⟨e1, e2, by rw [e3]; rfl⟩
  · intro msg hmsg
    have hmem : msg.rank ∈ (rs ++ ss).map (fun msg => msg.rank) :=
      List.mem_map_of_mem _ hmsg
    rw [h7, List.mem_map] at hmem
    obtain ⟨k, hk, e⟩ := hmem
    rw [List.mem_range] at hk
    omega
  · intro r hr1 hr2
    rw [h7]
    apply List.count_eq_one_of_mem
    · apply List.Nodup.map _ (List.nodup_range _)
      intro a c hac
      simp only at hac
      omega
    · rw [List.mem_map]
      exact ⟨(r - 1).toNat, by rw [List.mem_range]; omega, by omega⟩

/-- Witness for C8: twelve processes, first timestep. -/
theorem dispatch_one_per_rank_witness :
    (2 : Int) ≤ 12 ∧
    ∃ n b rs ss, partition 12 1 (initWorld 12).master = some (n, b, rs) ∧
      dispatch 12 1 (initWorld 12).master = some (b, rs ++ ss) ∧
      (rs.length : Int) ≤ 12 - 1 ∧
      (∀ msg ∈ rs, ¬ (msg.startRow = 0 ∧ msg.endRow = 0)) ∧
      rs.map (fun msg => msg.rank)
        = (List.range rs.length).map (fun (k : Nat) => 1 + (k : Int)) ∧
      (∀ s ∈ ss, s.startRow = 0 ∧ s.endRow = 0 ∧ s.payload.length = 0) ∧
      (rs ++ ss).map (fun msg => msg.rank)
        = (List.range ((12 : Int) - 1).toNat).map (fun (k : Nat) => 1 + (k : Int)) ∧
      (∀ msg ∈ rs ++ ss, 1 ≤ msg.rank ∧ msg.rank < 12) ∧
      (∀ r : Int, 1 ≤ r → r < 12 →
        ((rs ++ ss).map (fun msg => msg.rank)).count r = 1) :=
  ⟨by decide, dispatch_one_per_rank 12 1 (initWorld 12).master (by decide)⟩

/-- C9: for every process count `numtasks ≥ 2`, `splitSizeI` is
`min (ceil (XDIM / (numtasks-1)) + 2) XDIM`, every block the partition loop sends
has `endRow-startRow+1 ≤ splitSizeI` rows and `(endRow-startRow+1)*YDIM` cells, and
these cells, like the one row of `XDIM` cells a worker asks for when the range is
`(0, 0)`, fit in a buffer of `splitSizeI*YDIM` cells, the size with which every
`broken_u_a` and `broken_u_b` is allocated. -/
theorem block_fits (numtasks it : Int) (m : Master) (h : 2 ≤ numtasks) :
    splitSizeI numtasks
      = min (Int.ceil ((XDIM : ℚ) / ((numtasks - 1 : Int) : ℚ)) + 2) XDIM ∧
    (∃ n b rs, partition numtasks it m = some (n, b, rs) ∧
      ∀ msg ∈ rs, msg.endRow - msg.startRow + 1 ≤ splitSizeI numtasks ∧
        (msg.payload.length : Int) = (msg.endRow - msg.startRow + 1) * YDIM ∧
        (msg.payload.length : Int) ≤ splitSizeI numtasks * YDIM) ∧
    (0 - 0 + 1) * XDIM ≤ splitSizeI numtasks * YDIM ∧
    ((initWorld numtasks).master.broken_u_a.size : Int) = splitSizeI numtasks * YDIM ∧
    ((initWorld numtasks).master.broken_u_b.size : Int) = splitSizeI numtasks * YDIM ∧
    (∀ rank : Int,
      (((initWorld numtasks).workers rank).broken_u_a.size : Int)
        = splitSizeI numtasks * YDIM ∧
      (((initWorld numtasks).workers rank).broken_u_b.size : Int)
        = splitSizeI numtasks * YDIM) := by
  obtain ⟨hs1, hs2, _⟩ := splitSizeI_spec numtasks h
  have hn : 1 ≤ splitSizeI numtasks - 2 := by omega
  have hcap : ((callocBuf (splitSizeI numtasks * YDIM)).size : Int)
      = splitSizeI numtasks * YDIM := by
    rw [size_callocBuf]
    simp only [YDIM] at *
    omega
  refine ⟨?_, ?_, ?_, hcap, hcap, fun _ => ⟨hcap, hcap⟩⟩
  · unfold splitSizeI splitSizeD
    simp only []
    split
    · rw [min_eq_right (by omega)]
    · rw [min_eq_left (by omega)]
  · obtain ⟨n, b, rs, h1, _, _, h4, _⟩ := partition_tiles numtasks it m h
    refine ⟨n, b, rs, h1, ?_⟩
    intro msg hmsg
    have := tiles_mem _ hn rs 0 1 (le_refl 0) h4 msg hmsg
    obtain ⟨t1, t2, t3, t4, t5, t6, t7⟩ := this
    have hXY : XDIM = YDIM := rfl
    have e : (msg.payload.length : Int) = (msg.endRow - msg.startRow + 1) * YDIM := by
      rw [t7, hXY]
      simp only [YDIM] at *
      omega
    refine ⟨by omega, e, ?_⟩
    rw [e]
    simp only [YDIM] at *
    omega
  · simp only [XDIM, YDIM] at *
    omega

/-- Witness for C9: twelve processes, first timestep. -/
theorem block_fits_witness :
    (2 : Int) ≤ 12 ∧
    ∃ n b rs, partition 12 1 (initWorld 12).master = some (n, b, rs) ∧
      ∀ msg ∈ rs, msg.endRow - msg.startRow + 1 ≤ splitSizeI 12 ∧
        (msg.payload.length : Int) = (msg.endRow - msg.startRow + 1) * YDIM ∧
        (msg.payload.length : Int) ≤ splitSizeI 12 * YDIM :=
  ⟨by decide, (block_fits 12 1 (initWorld 12).master (by decide)).2.1⟩

theorem splitSizeI_three : splitSizeI 3 = 52 := by
  simp only [splitSizeI, splitSizeD, XDIM]
  norm_num

/-- C10 (amended): for every process count `numtasks ≥ 3`, any two consecutive
ranges of the partition loop, sent to ranks `k` and `k+1`, have exactly two rows
in common: the first row of the second range and the row after it, which is the
last row of the first range. -/
theorem consecutive_overlap (numtasks it : Int) (m : Master) (h : 3 ≤ numtasks) :
    ∃ n b rs, partition numtasks it m = some (n, b, rs) ∧
      rs.Chain' (fun m1 m2 => m2.rank = m1.rank + 1 ∧ m2.startRow + 1 = m1.endRow ∧
        ∀ r : Int, ((m1.startRow ≤ r ∧ r ≤ m1.endRow) ∧ (m2.startRow ≤ r ∧ r ≤ m2.endRow))
          ↔ (r = m2.startRow ∨ r = m2.startRow + 1)) := by
  obtain ⟨hs1, _, _⟩ := splitSizeI_spec numtasks (by omega)
  have hn : 1 ≤ splitSizeI numtasks - 2 := by omega
  obtain ⟨n, b, rs, h1, _, _, h4, _⟩ := partition_tiles numtasks it m (by omega)
  refine ⟨n, b, rs, h1, List.Chain'.imp ?_ (tiles_chain _ hn rs 0 1 (le_refl 0) h4)⟩
  intro a c hac
  refine ⟨hac.2.1, hac.1, fun r => ?_⟩
  omega

/-- Witness for C10 (amended): three processes, first timestep. -/
theorem consecutive_overlap_witness :
    (3 : Int) ≤ 3 ∧
    ∃ n b rs, partition 3 1 (initWorld 3).master = some (n, b, rs) ∧
      rs.Chain' (fun m1 m2 => m2.rank = m1.rank + 1 ∧ m2.startRow + 1 = m1.endRow ∧
        ∀ r : Int, ((m1.startRow ≤ r ∧ r ≤ m1.endRow) ∧ (m2.startRow ≤ r ∧ r ≤ m2.endRow))
          ↔ (r = m2.startRow ∨ r = m2.startRow + 1)) :=
  ⟨by decide, consecutive_overlap 3 1 (initWorld 3).master (by decide)⟩

/-- C10 as stated fails: with three processes the partition loop sends rows
`0 .. 51` to rank 1 and rows `50 .. 99` to rank 2, and the rows 50 and 51 lie in
both ranges, so no single row is the only common one. -/
theorem overlap_one_row_counterexample :
    ∃ n b m1 m2, partition 3 1 (initWorld 3).master = some (n, b, [m1, m2]) ∧
      (m1.rank = 1 ∧ m1.startRow = 0 ∧ m1.endRow = 51) ∧
      (m2.rank = 2 ∧ m2.startRow = 50 ∧ m2.endRow = 99) ∧
      ¬ ∃! r : Int, (m1.startRow ≤ r ∧ r ≤ m1.endRow) ∧ (m2.startRow ≤ r ∧ r ≤ m2.endRow) := by
  obtain ⟨n, b, rs, h1, _, _, h4, _⟩ := partition_tiles 3 1 (initWorld 3).master (by decide)
  rw [splitSizeI_three] at h4
  match rs, h4 with
  | [], h4 => simp [Tiles, XDIM] at h4
  | [a], h4 => simp [Tiles, XDIM] at h4
  | a :: c :: d :: rest, h4 => simp [Tiles, XDIM] at h4
  | [a, c], h4 =>
    simp only [Tiles, XDIM, YDIM] at h4
    obtain ⟨_, a1, a2, a3, _, _, c1, c2, c3, _, _⟩ := h4
    norm_num at a3 c1 c2 c3
    refine ⟨n, b, a, c, h1, ⟨a1, a2, a3⟩, ⟨c1, c2, c3⟩, ?_⟩
    rintro ⟨r, _, hr⟩
    have e1 := hr 50 (by rw [a2, a3, c2, c3]; decide)
    have e2 := hr 51 (by rw [a2, a3, c2, c3]; decide)
    omega

/-! ## The worker -/

theorem update_one_row (ny : Int) (u1 u2 : Buf) : update 1 ny u1 u2 = u2 := by
  simp [update, forLe, loopFrom]

theorem recvCells_nil (count : Int) (h : 0 ≤ count) (buf : Buf) :
    recvCells [] count buf = some buf := by
  simp [recvCells, h, forLt, loopFrom]

/-- C7 (amended): a worker that receives the range `(0, 0)` with no cells keeps
both its buffers as they are (`update` is called on one row and writes no cell)
and replies with the same range `(0, 0)` followed by one row of its
`broken_u_b`: `(0 - 0 + 1) * XDIM = 100` cells. -/
theorem worker_sentinel (rank : Int) (w : Worker) :
    workerRound ⟨rank, 0, 0, []⟩ w = some (w, ⟨rank, 0, 0, cells w.broken_u_b XDIM⟩) ∧
    (cells w.broken_u_b XDIM).length = 100 := by
  constructor
  · unfold workerRound
    simp only []
    rw [recvCells_nil _ (by decide)]
    simp only [sub_self, zero_add, update_one_row, one_mul]
  · rw [length_cells]; rfl

/-- C7 as stated fails: the reply of a worker to the range `(0, 0)` carries 100
cells, not none. -/
theorem worker_sentinel_counterexample :
    ∃ w r, workerRound ⟨2, 0, 0, []⟩ ⟨callocBuf 300, callocBuf 300⟩ = some (w, r) ∧
      r.startRow = 0 ∧ r.endRow = 0 ∧ r.payload.length = 100 ∧ r.payload.length ≠ 0 := by
  refine ⟨⟨callocBuf 300, callocBuf 300⟩, ⟨2, 0, 0, cells (callocBuf 300) XDIM⟩, ?_, rfl, rfl,
    ?_, ?_⟩
  · unfold workerRound
    simp only []
    rw [recvCells_nil _ (by decide)]
    simp only [sub_self, zero_add, update_one_row, one_mul]
  · rw [length_cells]; rfl
  · rw [length_cells]; decide

/-! ## The initial grid -/

theorem initdata_writes (nx ny : Int) (hny : 0 < ny) (u1 : Buf) :
    (initdata nx ny u1).size = u1.size ∧
    ∀ x : Int,
      ((∃ ix iy : Int, 0 ≤ ix ∧ ix ≤ nx - 1 ∧ 0 ≤ iy ∧ iy ≤ ny - 1 ∧
          (x = ix * ny + iy ∧ 0 ≤ x ∧ x < (u1.size : Int))) →
        load (initdata nx ny u1) x = ((initCell nx ny (x / ny) (x % ny) : Int) : ℚ)) ∧
      ((¬ ∃ ix iy : Int, 0 ≤ ix ∧ ix ≤ nx - 1 ∧ 0 ≤ iy ∧ iy ≤ ny - 1 ∧
          (x = ix * ny + iy ∧ 0 ≤ x ∧ x < (u1.size : Int))) →
        load (initdata nx ny u1) x = load u1 x) := by
  have h := forLe_writes u1.size
    (fun ix u1 => forLe 0 (ny - 1) (fun iy u1 =>
      store u1 (ix * ny + iy) ((initCell nx ny ix iy : Int) : ℚ)) u1)
    (fun i x => ∃ j : Int, 0 ≤ j ∧ j ≤ ny - 1 ∧
      (x = i * ny + j ∧ 0 ≤ x ∧ x < (u1.size : Int)))
    (fun x => ((initCell nx ny (x / ny) (x % ny) : Int) : ℚ))
    0 (nx - 1)
    (by
      intro i b _ _ hb
      exact forLe_writes u1.size (fun iy u1 =>
          store u1 (i * ny + iy) ((initCell nx ny i iy : Int) : ℚ))
        (fun j x => x = i * ny + j ∧ 0 ≤ x ∧ x < (u1.size : Int))
        (fun x => ((initCell nx ny (x / ny) (x % ny) : Int) : ℚ))
        0 (ny - 1)
        (fun j b j0 j1 hb => store_writes u1.size (i * ny + j) _
          (fun x => ((initCell nx ny (x / ny) (x % ny) : Int) : ℚ)) (by
            have e1 : (i * ny + j) / ny = i := by
              rw [add_comm, Int.add_mul_ediv_right _ _ (ne_of_gt hny),
                Int.ediv_eq_zero_of_lt j0 (by omega)]
              simp
            have e2 : (i * ny + j) % ny = j := by
              rw [add_comm, Int.add_mul_emod_self, Int.emod_eq_of_lt j0 (by omega)]
            simp only [e1, e2]) b hb) b hb)
    u1 rfl
  refine ⟨h.1, fun x => ⟨?_, ?_⟩⟩
  · rintro ⟨i, j, h1, h2, h3, h4, h5⟩
    exact (h.2 x).1 ⟨i, h1, h2, j, h3, h4, h5⟩
  · intro hn
    exact (h.2 x).2 (fun ⟨i, h1, h2, j, h3, h4, h5⟩ => hn ⟨i, j, h1, h2, h3, h4, h5⟩)

/-- The cells that `initdata` gives the configured grid. -/
theorem initdata_grid (r c : Int) (hr0 : 0 ≤ r) (hr1 : r ≤ XDIM - 1) (hc0 : 0 ≤ c)
    (hc1 : c ≤ YDIM - 1) :
    load (initdata XDIM YDIM (callocBuf (XDIM * YDIM))) (r * YDIM + c)
      = ((initCell XDIM YDIM r c : Int) : ℚ) := by
  have h := (initdata_writes XDIM YDIM (by decide) (callocBuf (XDIM * YDIM))).2 (r * YDIM + c)
  rw [h.1 ⟨r, c, hr0, hr1, hc0, hc1, rfl, by simp only [YDIM] at *; omega,
    by rw [size_callocBuf]; simp only [XDIM, YDIM] at *; omega⟩]
  have e1 : (r * YDIM + c) / YDIM = r := by simp only [YDIM] at *; omega
  have e2 : (r * YDIM + c) % YDIM = c := by simp only [YDIM] at *; omega
  rw [e1, e2]

theorem initCell_boundary (r c : Int) (h : r = 0 ∨ r = XDIM - 1 ∨ c = 0 ∨ c = YDIM - 1) :
    initCell XDIM YDIM r c = 0 := by
  rcases h with h | h | h | h <;> subst h <;> simp [initCell, wrap32, XDIM, YDIM]

/-! ## One round keeps the border of the full grids -/

theorem combine_boundary (seg tar : Buf) (s e x : Int) (hs : 0 ≤ s) (he : e ≤ XDIM - 1)
    (hx : IsBoundary x) : load (combine seg tar s e) x = load tar x := by
  refine ((combine_writes seg tar s e).2 x).2 ?_
  rintro ⟨i, j, h1, h2, h3, h4, h5, _, _⟩
  obtain ⟨r, c, r0, r1, c0, c1, hb, hrc⟩ := hx
  simp only [XDIM, YDIM] at *
  omega

theorem recvCells_some (payload : List ℚ) (count : Int) (buf : Buf)
    (h : (payload.length : Int) ≤ count) :
    ∃ b, recvCells payload count buf = some b ∧ b.size = buf.size := by
  refine ⟨forLt 0 (payload.length : Int)
    (fun k buf => store buf k (payload.getD k.toNat 0)) buf,
    by simp only [recvCells, h, if_true], ?_⟩
  exact (forLt_writes buf.size _ (fun k x => x = k ∧ 0 ≤ x ∧ x < (buf.size : Int))
    (fun x => payload.getD x.toNat 0) 0 _
    (fun k b _ _ hb => store_writes buf.size k _ (fun x => payload.getD x.toNat 0) rfl b hb)
    buf rfl).1

theorem workerRound_spec (msg : Msg) (w : Worker) (h : Sound msg) :
    ∃ w2 reply, workerRound msg w = some (w2, reply) ∧ reply.rank = msg.rank ∧
      reply.startRow = msg.startRow ∧ reply.endRow = msg.endRow ∧ Sound reply ∧
      w2.broken_u_a.size = w.broken_u_a.size ∧ w2.broken_u_b.size = w.broken_u_b.size := by
  obtain ⟨h0, h1, h2, h3⟩ := h
  obtain ⟨a, ha, hsa⟩ := recvCells_some msg.payload ((msg.endRow - msg.startRow + 1) * XDIM)
    w.broken_u_a h3
  refine ⟨⟨a, update (msg.endRow - msg.startRow + 1) YDIM a w.broken_u_b⟩,
    ⟨msg.rank, msg.startRow, msg.endRow,
      cells (update (msg.endRow - msg.startRow + 1) YDIM a w.broken_u_b)
        ((msg.endRow - msg.startRow + 1) * XDIM)⟩, ?_, rfl, rfl, rfl, ?_, hsa,
    (update_writes _ _ _ _).1⟩
  · unfold workerRound
    simp only []
    rw [ha]
  · refine ⟨h0, h1, h2, ?_⟩
    simp only [length_cells]
    simp only [XDIM] at *
    omega

theorem deliver_spec (numtasks : Int) :
    ∀ (msgs : List Msg) (ws : Int → Worker),
      (∀ msg ∈ msgs, Sound msg ∧ 1 ≤ msg.rank ∧ msg.rank < numtasks) →
      ∃ ws2 replies, deliver numtasks msgs ws = some (ws2, replies) ∧
        replies.map (fun r => r.rank) = msgs.map (fun r => r.rank) ∧
        ∀ r ∈ replies, Sound r := by
  intro msgs
  induction msgs with
  | nil => intro ws _; exact ⟨ws, [], rfl, rfl, by simp⟩
  | cons msg rest ih =>
    intro ws hall
    obtain ⟨hs, hr1, hr2⟩ := hall msg (List.mem_cons_self _ _)
    obtain ⟨w2, reply, hw, e1, _, _, hsr, _, _⟩ := workerRound_spec msg (ws msg.rank) hs
    obtain ⟨ws2, replies, hd, hmap, hsound⟩ :=
      ih (fun r => if r = msg.rank then w2 else ws r)
        (fun m hm => hall m (List.mem_cons_of_mem _ hm))
    refine ⟨ws2, reply :: replies, ?_, ?_, ?_⟩
    · simp only [deliver, hr1, hr2, and_self, if_true, hw, hd]
    · simp only [List.map_cons, hmap, e1]
    · intro r hr
      rcases List.mem_cons.mp hr with rfl | hr
      · exact hsr
      · exact hsound r hr

theorem find_rank (replies : List Msg) (nodei : Int)
    (h : nodei ∈ replies.map (fun r => r.rank)) :
    ∃ r, replies.find? (fun r => decide (r.rank = nodei)) = some r ∧ r ∈ replies := by
  obtain ⟨r0, hr0, e0⟩ := List.mem_map.mp h
  cases hf : replies.find? (fun r => decide (r.rank = nodei)) with
  | none =>
    have := List.find?_eq_none.mp hf r0 hr0
    simp [e0] at this
  | some r => exact ⟨r, rfl, List.mem_of_find?_eq_some hf⟩

theorem collectStep_spec (it : Int) (replies : List Msg) (nodei : Int) (m : Master)
    (hmem : nodei ∈ replies.map (fun r => r.rank)) (hs : ∀ r ∈ replies, Sound r) :
    ∃ m2, collectStep it replies nodei m = some m2 ∧
      (∀ x, IsBoundary x → load m2.full_u_a x = load m.full_u_a x ∧
        load m2.full_u_b x = load m.full_u_b x) := by
  obtain ⟨r, hf, hr⟩ := find_rank replies nodei hmem
  obtain ⟨h0, h1, h2, h3⟩ := hs r hr
  obtain ⟨bb, hb, _⟩ := recvCells_some r.payload ((r.endRow - r.startRow + 1) * XDIM)
    m.broken_u_b h3
  unfold collectStep
  simp only [hf, hb]
  split
  · exact ⟨_, rfl, fun x hx => ⟨rfl, combine_boundary _ _ _ _ x h0 h2 hx⟩⟩
  · exact ⟨_, rfl, fun x hx => ⟨combine_boundary _ _ _ _ x h0 h2 hx, rfl⟩⟩

theorem collect_spec (numtasks it : Int) (replies : List Msg) (m : Master)
    (hranks : replies.map (fun r => r.rank)
      = (List.range (numtasks - 1).toNat).map (fun (k : Nat) => 1 + (k : Int)))
    (hs : ∀ r ∈ replies, Sound r) :
    ∃ m2, collect numtasks it replies m = some m2 ∧
      (∀ x, IsBoundary x → load m2.full_u_a x = load m.full_u_a x ∧
        load m2.full_u_b x = load m.full_u_b x) := by
  unfold collect forLt
  refine loopFrom_inv _ (numtasks - 1).toNat
    (fun _ s => ∃ m2, s = some m2 ∧
      (∀ x, IsBoundary x → load m2.full_u_a x = load m.full_u_a x ∧
        load m2.full_u_b x = load m.full_u_b x)) 1 (some m)
    ⟨m, rfl, fun _ _ => ⟨rfl, rfl⟩⟩ ?_
  rintro k s hk ⟨m1, rfl, hm1⟩
  have hmem : (1 + (k : Int)) ∈ replies.map (fun r => r.rank) := by
    rw [hranks, List.mem_map]
    exact ⟨k, List.mem_range.mpr hk, rfl⟩
  obtain ⟨m2, h2, hm2⟩ := collectStep_spec it replies (1 + k) m1 hmem hs
  refine ⟨m2, h2, fun x hx => ?_⟩
  rw [(hm2 x hx).1, (hm2 x hx).2]
  exact hm1 x hx

theorem snapshot_grids (it : Int) (m : Master) :
    (snapshot it m).full_u_a = m.full_u_a ∧ (snapshot it m).full_u_b = m.full_u_b := by
  unfold snapshot prtdata
  split <;> exact ⟨rfl, rfl⟩

theorem round_spec (numtasks it : Int) (w : World) (h : 2 ≤ numtasks) :
    ∃ w2, round numtasks it w = some w2 ∧
      (∀ x, IsBoundary x → load w2.master.full_u_a x = load w.master.full_u_a x ∧
        load w2.master.full_u_b x = load w.master.full_u_b x) := by
  obtain ⟨hs1, _, _⟩ := splitSizeI_spec numtasks h
  have hn : 1 ≤ splitSizeI numtasks - 2 := by omega
  obtain ⟨n, b, rs, ss, _, hd, _, ht, _, hss, hranks⟩ := dispatch_ranks_aux numtasks it w.master h
  have hall : ∀ msg ∈ rs ++ ss, Sound msg ∧ 1 ≤ msg.rank ∧ msg.rank < numtasks := by
    intro msg hmsg
    have hmem : msg.rank ∈ (rs ++ ss).map (fun msg => msg.rank) :=
      List.mem_map_of_mem _ hmsg
    rw [hranks, List.mem_map] at hmem
    obtain ⟨k, hk, e⟩ := hmem
    rw [List.mem_range] at hk
    refine ⟨?_, by omega, by omega⟩
    rcases List.mem_append.mp hmsg with hm | hm
    · obtain ⟨t1, t2, t3, t4, t5, t6, t7⟩ := tiles_mem _ hn rs 0 1 (le_refl 0) ht msg hm
      refine ⟨by omega, by omega, by omega, ?_⟩
      rw [t7]
      simp only [XDIM] at *
      omega
    · obtain ⟨e1, e2, e3⟩ := hss msg hm
      refine ⟨by omega, by omega, by rw [e2]; decide, ?_⟩
      rw [e1, e2, e3]; decide
  obtain ⟨ws2, replies, hdel, hmap, hsound⟩ := deliver_spec numtasks (rs ++ ss) w.workers hall
  obtain ⟨m2, hc, hm2⟩ := collect_spec numtasks it replies
    { w.master with broken_u_a := b } (by rw [hmap, hranks]) hsound
  refine ⟨⟨snapshot it m2, ws2⟩, ?_, ?_⟩
  · unfold round
    simp only [hd, hdel, hc]
  · intro x hx
    simp only [(snapshot_grids it m2).1, (snapshot_grids it m2).2]
    exact hm2 x hx

theorem initWorld_grids (numtasks : Int) :
    (initWorld numtasks).master.full_u_a = initdata XDIM YDIM (callocBuf (XDIM * YDIM)) ∧
    (initWorld numtasks).master.full_u_b = callocBuf (XDIM * YDIM) := by
  simp only [initWorld, prtdata, and_self]

theorem rounds_spec (numtasks : Int) (h : 2 ≤ numtasks) (w0 : World) (n : Nat) (lo : Int) :
    ∃ w, loopFrom (fun it s =>
        match s with
        | none => none
        | some w => round numtasks it w) n lo (some w0) = some w ∧
      (∀ x, IsBoundary x → load w.master.full_u_a x = load w0.master.full_u_a x ∧
        load w.master.full_u_b x = load w0.master.full_u_b x) := by
  refine loopFrom_inv _ n
    (fun _ s => ∃ w, s = some w ∧
      (∀ x, IsBoundary x → load w.master.full_u_a x = load w0.master.full_u_a x ∧
        load w.master.full_u_b x = load w0.master.full_u_b x)) lo (some w0)
    ⟨w0, Eq.refl _, fun x _ => ⟨Eq.refl _, Eq.refl _⟩⟩ ?_
  rintro k s _ ⟨w1, rfl, hw1⟩
  obtain ⟨w2, h2, hw2⟩ := round_spec numtasks (lo + k) w1 h
  refine ⟨w2, h2, fun x hx => ?_⟩
  rw [(hw2 x hx).1, (hw2 x hx).2]
  exact hw1 x hx

theorem timesteps_spec (numtasks t : Int) (h : 2 ≤ numtasks) :
    ∃ w, timesteps numtasks t = some w ∧
      (∀ x, IsBoundary x →
        load w.master.full_u_a x = load (initWorld numtasks).master.full_u_a x ∧
        load w.master.full_u_b x = load (initWorld numtasks).master.full_u_b x) :=
  rounds_spec numtasks h (initWorld numtasks) (t + 1 - 1).toNat 1

/-- C3: for every process count `numtasks ≥ 2` and every timestep `t` with
`0 ≤ t ≤ nts`, the run reaches the end of timestep `t`, and in the coordinator
grid that holds the state after `t` timesteps every cell in row `0` or `XDIM-1`
or in column `0` or `YDIM-1` has the value that `initdata` gave that cell. -/
theorem boundary_invariant (numtasks t : Int) (h : 2 ≤ numtasks) (ht0 : 0 ≤ t)
    (ht1 : t ≤ params.nts) :
    ∃ w, timesteps numtasks t = some w ∧
      ∀ r c : Int, 0 ≤ r → r ≤ XDIM - 1 → 0 ≤ c → c ≤ YDIM - 1 →
        (r = 0 ∨ r = XDIM - 1 ∨ c = 0 ∨ c = YDIM - 1) →
        load (stateGrid t w.master) (r * YDIM + c)
          = load (initdata XDIM YDIM (callocBuf (XDIM * YDIM))) (r * YDIM + c) := by
  obtain ⟨w, hw, hb⟩ := timesteps_spec numtasks t h
  refine ⟨w, hw, ?_⟩
  intro r c r0 r1 c0 c1 hrc
  have hx : IsBoundary (r * YDIM + c) := ⟨r, c, r0, r1, c0, c1, hrc, rfl⟩
  have hinit : load (initdata XDIM YDIM (callocBuf (XDIM * YDIM))) (r * YDIM + c) = 0 := by
    rw [initdata_grid r c r0 r1 c0 c1, initCell_boundary r c hrc]
    simp
  unfold stateGrid
  split
  · rw [(hb _ hx).2, hinit, (initWorld_grids numtasks).2]
    exact load_callocBuf _ _
  · rw [(hb _ hx).1, (initWorld_grids numtasks).1]

/-- Witness for C3: four processes, the grid after three timesteps. -/
theorem boundary_invariant_witness :
    ((2 : Int) ≤ 4 ∧ (0 : Int) ≤ 3 ∧ (3 : Int) ≤ params.nts) ∧
    ∃ w, timesteps 4 3 = some w ∧
      ∀ r c : Int, 0 ≤ r → r ≤ XDIM - 1 → 0 ≤ c → c ≤ YDIM - 1 →
        (r = 0 ∨ r = XDIM - 1 ∨ c = 0 ∨ c = YDIM - 1) →
        load (stateGrid 3 w.master) (r * YDIM + c)
          = load (initdata XDIM YDIM (callocBuf (XDIM * YDIM))) (r * YDIM + c) :=
  ⟨⟨by decide, by decide, by decide⟩, boundary_invariant 4 3 (by decide) (by decide) (by decide)⟩

/-! ## Fuel and message contents -/

/-- More fuel does not change what the partition loop returns. -/
theorem partitionLoop_fuel (src : Buf) (numRows : Int) :
    ∀ (fuel : Nat) (rowi nodei : Int) (b : Buf) (res : Int × Buf × List Msg),
      partitionLoop src numRows fuel rowi nodei b = some res →
      partitionLoop src numRows (fuel + 1) rowi nodei b = some res := by
  intro fuel
  induction fuel with
  | zero =>
    intro rowi nodei b res h
    by_cases hr : rowi < XDIM - 2
    · simp [partitionLoop, hr] at h
    · simpa [partitionLoop, hr] using h
  | succ fuel ih =>
    intro rowi nodei b res h
    by_cases hr : rowi < XDIM - 2
    · rw [partitionLoop] at h
      simp only [hr, if_true] at h
      rw [partitionLoop]
      simp only [hr, if_true]
      cases hrec : partitionLoop src numRows fuel (rowi + numRows) (nodei + 1)
          (split src b rowi
            (if rowi + numRows + 1 ≥ YDIM then YDIM - 1 else rowi + numRows + 1)) with
      | none => rw [hrec] at h; exact absurd h (by simp)
      | some r =>
        rw [hrec] at h
        rw [ih _ _ _ r hrec]
        exact h
    · rw [partitionLoop] at h
      simp only [hr, if_false] at h
      rw [partitionLoop]
      simp only [hr, if_false]
      exact h

theorem getD_cells (buf : Buf) (count : Int) (k : Nat) (hk : (k : Int) < count) :
    (cells buf count).getD k 0 = load buf k := by
  have h : k < count.toNat := by omega
  simp [cells, List.getD_eq_getElem?_getD, h]

theorem load_recvCells (payload : List ℚ) (count : Int) (buf b : Buf)
    (h : recvCells payload count buf = some b) :
    b.size = buf.size ∧
    ∀ x : Int,
      ((0 ≤ x ∧ x < (payload.length : Int) ∧ x < (buf.size : Int)) →
        load b x = payload.getD x.toNat 0) ∧
      ((¬ (0 ≤ x ∧ x < (payload.length : Int) ∧ x < (buf.size : Int))) →
        load b x = load buf x) := by
  unfold recvCells at h
  split at h
  · simp only [Option.some.injEq] at h
    subst h
    have hw := forLt_writes buf.size (fun k buf => store buf k (payload.getD k.toNat 0))
      (fun k x => x = k ∧ 0 ≤ x ∧ x < (buf.size : Int))
      (fun x => payload.getD x.toNat 0) 0 (payload.length : Int)
      (fun k b _ _ hb => store_writes buf.size k _ (fun x => payload.getD x.toNat 0) rfl b hb)
      buf rfl
    refine ⟨hw.1, fun x => ⟨?_, ?_⟩⟩
    · rintro ⟨h0, h1, h2⟩
      exact (hw.2 x).1 ⟨x, h0, h1, rfl, h0, h2⟩
    · intro hn
      refine (hw.2 x).2 ?_
      rintro ⟨k, k0, k1, rfl, _, h2⟩
      exact hn ⟨k0, k1, h2⟩
  · exact absurd h (by simp)

/-! ## Ranges of the partition -/

/-- C11: for every process count `numtasks ≥ 2` the partition loop ends and every
range `(startRow, endRow)` it sends satisfies `0 ≤ startRow`,
`startRow + 2 ≤ endRow` and `endRow ≤ XDIM-1`; so `0 ≤ startRow ≤ endRow < XDIM`,
the row `startRow+1` is an interior row of the range and of the grid, and the
range is not `(0, 0)`. -/
theorem ranges_wellformed (numtasks it : Int) (m : Master) (h : 2 ≤ numtasks) :
    ∃ n b rs, partition numtasks it m = some (n, b, rs) ∧
      ∀ msg ∈ rs,
        (0 ≤ msg.startRow ∧ msg.startRow + 2 ≤ msg.endRow ∧ msg.endRow ≤ XDIM - 1) ∧
        (0 ≤ msg.startRow ∧ msg.startRow ≤ msg.endRow ∧ msg.endRow < XDIM) ∧
        (msg.startRow + 1 ≤ msg.endRow - 1 ∧ 1 ≤ msg.startRow + 1 ∧
          msg.startRow + 1 ≤ XDIM - 2) ∧
        ¬ (msg.startRow = 0 ∧ msg.endRow = 0) := by
  obtain ⟨hs1, _, _⟩ := splitSizeI_spec numtasks h
  have hn : 1 ≤ splitSizeI numtasks - 2 := by omega
  obtain ⟨n, b, rs, h1, _, _, h4, _⟩ := partition_tiles numtasks it m h
  refine ⟨n, b, rs, h1, ?_⟩
  intro msg hmsg
  obtain ⟨t1, t2, t3, t4, _, _, _⟩ := tiles_mem _ hn rs 0 1 (le_refl 0) h4 msg hmsg
  refine ⟨⟨t1, t3, t4⟩, ⟨t1, by omega, by omega⟩, ⟨by omega, by omega, by omega⟩, by omega⟩

/-- Witness for C11: five processes, second timestep. -/
theorem ranges_wellformed_witness :
    (2 : Int) ≤ 5 ∧
    ∃ n b rs, partition 5 2 (initWorld 5).master = some (n, b, rs) ∧
      ∀ msg ∈ rs,
        (0 ≤ msg.startRow ∧ msg.startRow + 2 ≤ msg.endRow ∧ msg.endRow ≤ XDIM - 1) ∧
        (0 ≤ msg.startRow ∧ msg.startRow ≤ msg.endRow ∧ msg.endRow < XDIM) ∧
        (msg.startRow + 1 ≤ msg.endRow - 1 ∧ 1 ≤ msg.startRow + 1 ∧
          msg.startRow + 1 ≤ XDIM - 2) ∧
        ¬ (msg.startRow = 0 ∧ msg.endRow = 0) :=
  ⟨by decide, ranges_wellformed 5 2 (initWorld 5).master (by decide)⟩

/-! ## Equality of buffers -/

theorem load_eq_getElem (a : Buf) (i : Nat) (h : i < a.size) : load a (i : Int) = a[i] := by
  simp [load, Array.getElem?_eq_getElem h]

theorem buf_ext (a b : Buf) (hs : a.size = b.size) (h : ∀ x, load a x = load b x) : a = b := by
  apply Array.ext a b hs
  intro i h1 h2
  have := h (i : Int)
  rwa [load_eq_getElem a i h1, load_eq_getElem b i h2] at this

/-- C13: for every block, full grid and range, `combine` applied a second time
with the same block and range returns the grid that the first application
returned. -/
theorem combine_idempotent (block fullGrid : Buf) (startRow endRow : Int) :
    combine block (combine block fullGrid startRow endRow) startRow endRow
      = combine block fullGrid startRow endRow := by
  have h1 := combine_writes block fullGrid startRow endRow
  have h2 := combine_writes block (combine block fullGrid startRow endRow) startRow endRow
  apply buf_ext _ _ h2.1
  intro x
  by_cases hx : ∃ i j : Int, 1 ≤ i ∧ i ≤ endRow - startRow - 1 ∧ 1 ≤ j ∧ j < YDIM - 1 ∧
      (x = (startRow + i) * YDIM + j ∧ 0 ≤ x ∧ x < (fullGrid.size : Int))
  · rw [(h1.2 x).1 hx]
    refine (h2.2 x).1 ?_
    rw [h1.1]
    exact hx
  · refine (h2.2 x).2 ?_
    rw [h1.1]
    exact hx

/-! ## The frame of `update` -/

theorem cell_unique (ny r c i j : Int) (hny : 0 < ny) (hc0 : 0 ≤ c) (hc1 : c < ny)
    (hj0 : 0 ≤ j) (hj1 : j < ny) (h : r * ny + c = i * ny + j) : r = i ∧ c = j := by
  have e1 : (r * ny + c) / ny = r := by
    rw [add_comm, Int.add_mul_ediv_right _ _ (ne_of_gt hny), Int.ediv_eq_zero_of_lt hc0 hc1]
    simp
  have e2 : (i * ny + j) / ny = i := by
    rw [add_comm, Int.add_mul_ediv_right _ _ (ne_of_gt hny), Int.ediv_eq_zero_of_lt hj0 hj1]
    simp
  have hri : r = i := by rw [← e1, ← e2, h]
  subst hri
  exact ⟨rfl, by omega⟩

/-- C14: for every `nx`, `ny` and blocks `u1`, `u2`, the block that
`update nx ny u1 u2` returns has the size of `u2` and holds the value of `u2` in
every cell of row `0`, row `nx-1`, column `0` and column `ny-1`; when `nx ≤ 2` or
`ny ≤ 2` it is `u2` itself.  `update` returns the new `u2` alone: it reads `u1` and
has no way to change it. -/
theorem update_frame (nx ny : Int) (u1 u2 : Buf) :
    (update nx ny u1 u2).size = u2.size ∧
    (∀ r c : Int, 0 ≤ r → r ≤ nx - 1 → 0 ≤ c → c ≤ ny - 1 →
      (r = 0 ∨ r = nx - 1 ∨ c = 0 ∨ c = ny - 1) →
      load (update nx ny u1 u2) (r * ny + c) = load u2 (r * ny + c)) ∧
    (nx ≤ 2 ∨ ny ≤ 2 → update nx ny u1 u2 = u2) := by
  have hw := update_writes nx ny u1 u2
  refine ⟨hw.1, ?_, ?_⟩
  · intro r c r0 r1 c0 c1 hrc
    refine (hw.2 _).2 ?_
    rintro ⟨i, j, i1, i2, j1, j2, hx, _, _⟩
    obtain ⟨e1, e2⟩ := cell_unique ny r c i j (by omega) c0 (by omega) (by omega) (by omega) hx
    omega
  · intro hsmall
    apply buf_ext _ _ hw.1
    intro x
    refine (hw.2 x).2 ?_
    rintro ⟨i, j, i1, i2, j1, j2, _⟩
    omega

/-- Witness for C14: the border of a 3 x 3 block, and a block of two rows. -/
theorem update_frame_witness :
    ((0 : Int) ≤ 2 ∧ (2 : Int) ≤ 3 - 1 ∧ ((2 : Int) ≤ 2 ∨ (3 : Int) ≤ 2)) ∧
    load (update 3 3 #[0, 1, 2, 3, 4, 5, 6, 7, 8] (callocBuf 9)) (2 * 3 + 1)
      = load (callocBuf 9) (2 * 3 + 1) ∧
    update 2 3 #[0, 1, 2, 3, 4, 5] (callocBuf 6) = callocBuf 6 :=
  ⟨⟨by decide, by decide, by decide⟩,
    (update_frame 3 3 #[0, 1, 2, 3, 4, 5, 6, 7, 8] (callocBuf 9)).2.1 2 1 (by decide)
      (by decide) (by decide) (by decide) (by decide),
    (update_frame 2 3 #[0, 1, 2, 3, 4, 5] (callocBuf 6)).2.2 (by decide)⟩

/-! ## The golden value of the kernel -/

/-- C16: on the 4 x 4 grid that `initdata 4 4` produces, whose cell `(1, 1)` is 4,
one `update 4 4` with `cx = cy = 1/10` gives the output cell `(1, 1)` the value
`4 + (1/10)*(4 + 0 - 2*4) + (1/10)*(4 + 0 - 2*4) = 16/5`, in exact arithmetic. -/
theorem golden_kernel :
    params.cx = 1 / 10 ∧ params.cy = 1 / 10 ∧
    load (initdata 4 4 (callocBuf 16)) (1 * 4 + 1) = 4 ∧
    load (update 4 4 (initdata 4 4 (callocBuf 16)) (callocBuf 16)) (1 * 4 + 1)
      = 4 + (1 / 10) * (4 + 0 - 2 * 4) + (1 / 10) * (4 + 0 - 2 * 4) ∧
    load (update 4 4 (initdata 4 4 (callocBuf 16)) (callocBuf 16)) (1 * 4 + 1) = 16 / 5 := by
  have hi : ∀ r c : Int, 0 ≤ r → r ≤ 3 → 0 ≤ c → c ≤ 3 →
      load (initdata 4 4 (callocBuf 16)) (r * 4 + c) = ((initCell 4 4 r c : Int) : ℚ) := by
    intro r c r0 r1 c0 c1
    have h := (initdata_writes 4 4 (by decide) (callocBuf 16)).2 (r * 4 + c)
    rw [h.1 ⟨r, c, r0, by omega, c0, by omega, rfl, by omega,
      by rw [size_callocBuf]; simp; omega⟩]
    have e1 : (r * 4 + c) / 4 = r := by omega
    have e2 : (r * 4 + c) % 4 = c := by omega
    rw [e1, e2]
  have h11 : load (initdata 4 4 (callocBuf 16)) 5 = 4 := by
    have := hi 1 1 (by decide) (by decide) (by decide) (by decide)
    simpa [initCell, wrap32] using this
  have h21 : load (initdata 4 4 (callocBuf 16)) 9 = 4 := by
    have := hi 2 1 (by decide) (by decide) (by decide) (by decide)
    simpa [initCell, wrap32] using this
  have h01 : load (initdata 4 4 (callocBuf 16)) 1 = 0 := by
    have := hi 0 1 (by decide) (by decide) (by decide) (by decide)
    simpa [initCell, wrap32] using this
  have h12 : load (initdata 4 4 (callocBuf 16)) 6 = 4 := by
    have := hi 1 2 (by decide) (by decide) (by decide) (by decide)
    simpa [initCell, wrap32] using this
  have h10 : load (initdata 4 4 (callocBuf 16)) 4 = 0 := by
    have := hi 1 0 (by decide) (by decide) (by decide) (by decide)
    simpa [initCell, wrap32] using this
  have hu : load (update 4 4 (initdata 4 4 (callocBuf 16)) (callocBuf 16)) (1 * 4 + 1)
      = 4 + (1 / 10) * (4 + 0 - 2 * 4) + (1 / 10) * (4 + 0 - 2 * 4) := by
    rw [((update_writes 4 4 (initdata 4 4 (callocBuf 16)) (callocBuf 16)).2 (1 * 4 + 1)).1
      ⟨1, 1, by decide, by decide, by decide, by decide, rfl, by decide,
        by rw [size_callocBuf]; decide⟩]
    norm_num [h11, h21, h01, h12, h10, params]
  refine ⟨rfl, rfl, h11, hu, ?_⟩
  rw [hu]; norm_num

/-! ## The guard on the process count -/

/-- C17: with `numtasks ≤ 1` processes `main` returns the status 1 and no grid
exists; with `numtasks ≥ 2` the run goes through its timesteps and ends with the
status 0. -/
theorem main_guard (numtasks : Int) :
    (numtasks ≤ 1 → main numtasks = some (1, none)) ∧
    (2 ≤ numtasks → ∃ w, main numtasks = some (0, some w)) := by
  constructor
  · intro h
    simp only [main, mainWith, h, if_true]
  · intro h
    obtain ⟨w, hw, _⟩ := timesteps_spec numtasks params.nts h
    have h1 : ¬ numtasks ≤ 1 := by omega
    exact ⟨⟨snapshot (max 1 (params.nts + 1)) w.master, w.workers⟩,
      by simp only [main, mainWith, h1, if_false, hw]⟩

/-- Witness for C17: one process and two processes. -/
theorem main_guard_witness :
    ((1 : Int) ≤ 1 ∧ (2 : Int) ≤ 2) ∧
    main 1 = some (1, none) ∧ ∃ w, main 2 = some (0, some w) :=
  ⟨⟨by decide, by decide⟩, (main_guard 1).1 (by decide), (main_guard 2).2 (by decide)⟩

/-! ## `initdata` on the configured grid -/

theorem wrap32_id (x : Int) (h0 : -2147483648 ≤ x) (h1 : x ≤ 2147483647) : wrap32 x = x := by
  unfold wrap32; omega

/-- C20: on the configured grid, for every cell `(ix, iy)` with `0 ≤ ix, iy ≤ 99`,
each intermediate value of the product `ix * (nx - ix - 1) * iy * (ny - iy - 1)`
lies in the range of a signed 32-bit `int`, so the value that `initdata` stores is
the exact product; it is not negative, and it is 0 exactly when the cell is in
row 0, row 99, column 0 or column 99. -/
theorem initdata_no_overflow (ix iy : Int) (hx0 : 0 ≤ ix) (hx1 : ix ≤ 99) (hy0 : 0 ≤ iy)
    (hy1 : iy ≤ 99) :
    XDIM = 100 ∧ YDIM = 100 ∧
    (-2147483648 ≤ XDIM - ix - 1 ∧ XDIM - ix - 1 ≤ 2147483647) ∧
    (-2147483648 ≤ ix * (XDIM - ix - 1) ∧ ix * (XDIM - ix - 1) ≤ 2147483647) ∧
    (-2147483648 ≤ ix * (XDIM - ix - 1) * iy ∧ ix * (XDIM - ix - 1) * iy ≤ 2147483647) ∧
    (-2147483648 ≤ YDIM - iy - 1 ∧ YDIM - iy - 1 ≤ 2147483647) ∧
    (-2147483648 ≤ ix * (XDIM - ix - 1) * iy * (YDIM - iy - 1) ∧
      ix * (XDIM - ix - 1) * iy * (YDIM - iy - 1) ≤ 2147483647) ∧
    initCell XDIM YDIM ix iy = ix * (XDIM - ix - 1) * iy * (YDIM - iy - 1) ∧
    load (initdata XDIM YDIM (callocBuf (XDIM * YDIM))) (ix * YDIM + iy)
      = ((ix * (XDIM - ix - 1) * iy * (YDIM - iy - 1) : Int) : ℚ) ∧
    0 ≤ ix * (XDIM - ix - 1) * iy * (YDIM - iy - 1) ∧
    (ix * (XDIM - ix - 1) * iy * (YDIM - iy - 1) = 0 ↔
      (ix = 0 ∨ ix = 99 ∨ iy = 0 ∨ iy = 99)) := by
  have a0 : 0 ≤ 99 - ix := by omega
  have b0 : 0 ≤ 99 - iy := by omega
  have p2lo : 0 ≤ ix * (99 - ix) := mul_nonneg hx0 a0
  have p2hi : ix * (99 - ix) ≤ 99 * 99 := mul_le_mul hx1 (by omega) a0 (by decide)
  have p3lo : 0 ≤ ix * (99 - ix) * iy := mul_nonneg p2lo hy0
  have p3hi : ix * (99 - ix) * iy ≤ 99 * 99 * 99 := mul_le_mul p2hi hy1 hy0 (by decide)
  have p4lo : 0 ≤ ix * (99 - ix) * iy * (99 - iy) := mul_nonneg p3lo b0
  have p4hi : ix * (99 - ix) * iy * (99 - iy) ≤ 99 * 99 * 99 * 99 :=
    mul_le_mul p3hi (by omega) b0 (by decide)
  have eX : XDIM - ix - 1 = 99 - ix := by simp only [XDIM]; omega
  have eY : YDIM - iy - 1 = 99 - iy := by simp only [YDIM]; omega
  have hcell : initCell XDIM YDIM ix iy = ix * (99 - ix) * iy * (99 - iy) := by
    unfold initCell
    rw [eX, eY, wrap32_id (99 - ix) (by omega) (by omega),
      wrap32_id (ix * (99 - ix)) (by omega) (by omega),
      wrap32_id (ix * (99 - ix) * iy) (by omega) (by omega),
      wrap32_id (99 - iy) (by omega) (by omega),
      wrap32_id (ix * (99 - ix) * iy * (99 - iy)) (by omega) (by omega)]
  rw [eX, eY]
  refine ⟨rfl, rfl, by omega, by omega, by omega, by omega, by omega, hcell, ?_, p4lo, ?_⟩
  · rw [initdata_grid ix iy hx0 (by simp only [XDIM]; omega) hy0 (by simp only [YDIM]; omega),
      hcell]
  · constructor
    · intro h
      rcases mul_eq_zero.mp h with h | h
      · rcases mul_eq_zero.mp h with h | h
        · rcases mul_eq_zero.mp h with h | h
          · exact Or.inl h
          · exact Or.inr (Or.inl (by omega))
        · exact Or.inr (Or.inr (Or.inl h))
      · exact Or.inr (Or.inr (Or.inr (by omega)))
    · rintro (h | h | h | h) <;> subst h <;> simp

/-- Witness for C20: the cell `(49, 50)`, where the product is largest. -/
theorem initdata_no_overflow_witness :
    ((0 : Int) ≤ 49 ∧ (49 : Int) ≤ 99 ∧ (0 : Int) ≤ 50 ∧ (50 : Int) ≤ 99) ∧
    initCell XDIM YDIM 49 50 = 49 * (XDIM - 49 - 1) * 50 * (YDIM - 50 - 1) :=
  ⟨⟨by decide, by decide, by decide, by decide⟩,
    (initdata_no_overflow 49 50 (by decide) (by decide) (by decide)
      (by decide)).2.2.2.2.2.2.2.1⟩

/-! ## Double buffering and the files written -/

theorem splitSource_eq (it : Int) (m : Master) : splitSource it m = m.grid (readGrid it) := by
  unfold splitSource readGrid Master.grid
  split <;> rfl

theorem stateGrid_eq (it : Int) (m : Master) : stateGrid it m = m.grid (writeGrid it) := by
  unfold stateGrid writeGrid Master.grid
  split <;> rfl

theorem collectStep_frame (it : Int) (replies : List Msg) (nodei : Int) (m m2 : Master)
    (h : collectStep it replies nodei m = some m2) :
    m2.files = m.files ∧ m2.broken_u_a = m.broken_u_a ∧
    splitSource it m2 = splitSource it m ∧
    ∃ bb s e, stateGrid it m2 = combine bb (stateGrid it m) s e := by
  unfold collectStep at h
  cases hf : replies.find? (fun r => decide (r.rank = nodei)) with
  | none => rw [hf] at h; exact absurd h (by simp)
  | some r =>
    rw [hf] at h
    simp only [] at h
    cases hr : recvCells r.payload ((r.endRow - r.startRow + 1) * XDIM) m.broken_u_b with
    | none => rw [hr] at h; exact absurd h (by simp)
    | some bb =>
      rw [hr] at h
      simp only [] at h
      unfold splitSource stateGrid
      cases ho : isOdd it with
      | true =>
        simp only [ho, if_true, Option.some.injEq] at h ⊢
        subst h
        exact ⟨rfl, rfl, rfl, bb, r.startRow, r.endRow, rfl⟩
      | false =>
        simp only [ho, Bool.false_eq_true, if_false, Option.some.injEq] at h ⊢
        subst h
        exact ⟨rfl, rfl, rfl, bb, r.startRow, r.endRow, rfl⟩

theorem collect_frame (numtasks it : Int) (replies : List Msg) (m m2 : Master)
    (h : collect numtasks it replies m = some m2) :
    m2.files = m.files ∧ m2.broken_u_a = m.broken_u_a ∧
    splitSource it m2 = splitSource it m := by
  unfold collect forLt at h
  have key := loopFrom_inv (fun nodei (s : Option Master) =>
      match s with
      | none => none
      | some m => collectStep it replies nodei m) (numtasks - 1).toNat
    (fun _ s => ∀ m3, s = some m3 → m3.files = m.files ∧ m3.broken_u_a = m.broken_u_a ∧
      splitSource it m3 = splitSource it m) 1 (some m)
    (by intro m3 h3; simp only [Option.some.injEq] at h3; subst h3; exact ⟨rfl, rfl, rfl⟩)
    (by
      intro k s _ ih m3 h3
      cases s with
      | none => exact absurd h3 (by simp)
      | some m1 =>
        obtain ⟨f1, f2, f3⟩ := ih m1 rfl
        obtain ⟨g1, g2, g3, _⟩ := collectStep_frame it replies _ m1 m3 h3
        exact ⟨g1.trans f1, g2.trans f2, g3.trans f3⟩)
  exact key m2 h

theorem round_frame (numtasks it : Int) (w w2 : World) (h : round numtasks it w = some w2) :
    w2.master.files
      = w.master.files ++ [⟨XDIM, YDIM, it - 1, splitSource it w.master, ⟨false, it⟩⟩] ∧
    splitSource it w2.master = splitSource it w.master := by
  unfold round at h
  cases hd : dispatch numtasks it w.master with
  | none => rw [hd] at h; exact absurd h (by simp)
  | some d =>
    obtain ⟨b, outbox⟩ := d
    rw [hd] at h
    simp only [] at h
    cases hdel : deliver numtasks outbox w.workers with
    | none => rw [hdel] at h; exact absurd h (by simp)
    | some dl =>
      obtain ⟨workers, replies⟩ := dl
      rw [hdel] at h
      simp only [] at h
      cases hc : collect numtasks it replies { w.master with broken_u_a := b } with
      | none => rw [hc] at h; exact absurd h (by simp)
      | some m =>
        rw [hc] at h
        simp only [Option.some.injEq] at h
        subst h
        obtain ⟨f1, _, f3⟩ := collect_frame numtasks it replies _ m hc
        have hsrc : splitSource it m = splitSource it w.master := by
          rw [f3]; unfold splitSource; split <;> rfl
        have hfiles : m.files = w.master.files := f1
        constructor
        · show (snapshot it m).files = _
          rw [← hsrc]
          unfold snapshot prtdata splitSource
          cases ho : isOdd it with
          | true => simp only [if_true, hfiles]
          | false => simp only [Bool.false_eq_true, if_false, hfiles]
        · show splitSource it (snapshot it m) = _
          rw [← hsrc]
          unfold splitSource snapshot prtdata
          split <;> rfl

theorem grid_parity (it : Int) :
    readGrid it ≠ writeGrid it ∧ printGrid it = readGrid it ∧
    (it % 2 = 1 → readGrid it = GridId.a ∧ writeGrid it = GridId.b) ∧
    (it % 2 = 0 → readGrid it = GridId.b ∧ writeGrid it = GridId.a) ∧
    readGrid (it + 1) = writeGrid it := by
  unfold readGrid writeGrid printGrid isOdd
  have h2 : it % 2 = 0 ∨ it % 2 = 1 := by omega
  rcases h2 with h | h
  · have h3 : (it + 1) % 2 = 1 := by omega
    simp [h, h3]
  · have h3 : (it + 1) % 2 = 0 := by omega
    simp [h, h3]

/-- C15: in every timestep `it` the grid that `split` reads and the grid that
`combine` writes are different buffers: `full_u_a` and `full_u_b` for odd `it`,
`full_u_b` and `full_u_a` for even `it`; the grid read in timestep `it+1` is the
one written in timestep `it`.  The partition loop reads the grid named by
`readGrid`, each collecting step combines into the grid named by `writeGrid` and
leaves the other as it is, and so does the whole round. -/
theorem double_buffering (it : Int) :
    readGrid it ≠ writeGrid it ∧
    (it % 2 = 1 → readGrid it = GridId.a ∧ writeGrid it = GridId.b) ∧
    (it % 2 = 0 → readGrid it = GridId.b ∧ writeGrid it = GridId.a) ∧
    readGrid (it + 1) = writeGrid it ∧
    (∀ (numtasks : Int) (m : Master),
      partition numtasks it m
        = partitionLoop (m.grid (readGrid it)) (splitSizeI numtasks - 2) XDIM.toNat 0 1
            m.broken_u_a) ∧
    (∀ (replies : List Msg) (nodei : Int) (m m2 : Master),
      collectStep it replies nodei m = some m2 →
        m2.grid (readGrid it) = m.grid (readGrid it) ∧
        ∃ bb s e, m2.grid (writeGrid it) = combine bb (m.grid (writeGrid it)) s e) ∧
    (∀ (numtasks : Int) (w w2 : World), round numtasks it w = some w2 →
      w2.master.grid (readGrid it) = w.master.grid (readGrid it)) := by
  obtain ⟨g1, _, g3, g4, g5⟩ := grid_parity it
  refine ⟨g1, g3, g4, g5, ?_, ?_, ?_⟩
  · intro numtasks m
    unfold partition
    rw [splitSource_eq]
  · intro replies nodei m m2 h
    obtain ⟨_, _, f3, f4⟩ := collectStep_frame it replies nodei m m2 h
    rw [splitSource_eq, splitSource_eq] at f3
    rw [stateGrid_eq, stateGrid_eq] at f4
    exact ⟨f3, f4⟩
  · intro numtasks w w2 h
    have := (round_frame numtasks it w w2 h).2
    rwa [splitSource_eq, splitSource_eq] at this

/-- Witness for C15: the first timestep. -/
theorem double_buffering_witness :
    (1 : Int) % 2 = 1 ∧ readGrid 1 = GridId.a ∧ writeGrid 1 = GridId.b :=
  ⟨by decide, (double_buffering 1).2.1 (by decide)⟩

theorem snapshot_files (it : Int) (m : Master) :
    (snapshot it m).files = m.files ++ [⟨XDIM, YDIM, it - 1, m.grid (printGrid it), ⟨false, it⟩⟩] := by
  unfold snapshot prtdata printGrid Master.grid
  cases ho : isOdd it with
  | true => simp only [if_true]
  | false => simp only [Bool.false_eq_true, if_false]

theorem stateGrid_zero (m : Master) : stateGrid 0 m = m.full_u_a := by
  unfold stateGrid
  have e : isOdd 0 = false := by decide
  rw [e]
  rfl

/-- C19: for every timestep count `nts ≥ 0` the run ends, and the grid in the file
written after the loop, chosen by the parity of `it = nts + 1`, is the grid that
holds the state after `nts` timesteps: `full_u_a` as `initdata` filled it when
`nts = 0`, otherwise the grid that `combine` wrote in timestep `nts`. -/
theorem final_output (nts numtasks : Int) (h0 : 0 ≤ nts) (h : 2 ≤ numtasks) :
    printGrid (nts + 1) = (if nts = 0 then GridId.a else writeGrid nts) ∧
    ∃ w, timesteps numtasks nts = some w ∧
      mainWith nts numtasks = some (0, some ⟨snapshot (nts + 1) w.master, w.workers⟩) ∧
      (snapshot (nts + 1) w.master).files
        = w.master.files ++ [⟨XDIM, YDIM, nts, stateGrid nts w.master, ⟨false, nts + 1⟩⟩] ∧
      (nts = 0 → stateGrid nts w.master = initdata XDIM YDIM (callocBuf (XDIM * YDIM))) ∧
      (1 ≤ nts → stateGrid nts w.master = w.master.grid (writeGrid nts)) := by
  obtain ⟨_, g2, _, _, g5⟩ := grid_parity (nts + 1)
  have hp : printGrid (nts + 1) = writeGrid nts := by
    rw [g2]; exact (grid_parity nts).2.2.2.2
  constructor
  · by_cases hz : nts = 0
    · subst hz; simp only [if_true]; decide
    · simp only [hz, if_false]; exact hp
  · obtain ⟨w, hw, _⟩ := timesteps_spec numtasks nts h
    have h1 : ¬ numtasks ≤ 1 := by omega
    refine ⟨w, hw, ?_, ?_, ?_, ?_⟩
    · simp only [mainWith, h1, if_false, hw, max_eq_right (show (1 : Int) ≤ nts + 1 by omega)]
    · rw [snapshot_files, hp, stateGrid_eq, add_sub_cancel_right]
    · intro hz
      subst hz
      have hw0 : timesteps numtasks 0 = some (initWorld numtasks) := by
        unfold timesteps forLe
        have e : ((0 : Int) + 1 - 1).toNat = 0 := by decide
        rw [e, loopFrom]
      rw [hw0] at hw
      simp only [Option.some.injEq] at hw
      rw [stateGrid_zero, ← hw]
      exact (initWorld_grids numtasks).1
    · intro _
      exact stateGrid_eq nts w.master

/-- Witness for C19: three timesteps on four processes. -/
theorem final_output_witness :
    ((0 : Int) ≤ 3 ∧ (2 : Int) ≤ 4) ∧
    printGrid (3 + 1) = (if (3 : Int) = 0 then GridId.a else writeGrid 3) :=
  ⟨⟨by decide, by decide⟩, (final_output 3 4 (by decide) (by decide)).1⟩

/-- C12 (amended): for every timestep `it`, the round ends and the file written
after its `combine` calls is `final_new_<it>.csv` with the grid that the `split`
calls of this round read, which the round has not changed and which is not the
grid that the `combine` calls wrote; the timestep index passed is `it - 1`. -/
theorem snapshot_after_round (numtasks it : Int) (w : World) (h : 2 ≤ numtasks) :
    ∃ w2, round numtasks it w = some w2 ∧
      w2.master.files
        = w.master.files ++ [⟨XDIM, YDIM, it - 1, w.master.grid (readGrid it), ⟨false, it⟩⟩] ∧
      w2.master.grid (readGrid it) = w.master.grid (readGrid it) ∧
      printGrid it = readGrid it ∧ readGrid it ≠ writeGrid it := by
  obtain ⟨w2, hw2, _⟩ := round_spec numtasks it w h
  obtain ⟨f1, f2⟩ := round_frame numtasks it w w2 hw2
  rw [splitSource_eq] at f1
  rw [splitSource_eq, splitSource_eq] at f2
  exact ⟨w2, hw2, f1, f2, (grid_parity it).2.1, (grid_parity it).1⟩

/-- Witness for C12 (amended): the first timestep on four processes. -/
theorem snapshot_after_round_witness :
    (2 : Int) ≤ 4 ∧
    ∃ w2, round 4 1 (initWorld 4) = some w2 ∧
      w2.master.files
        = (initWorld 4).master.files
          ++ [⟨XDIM, YDIM, 1 - 1, (initWorld 4).master.grid (readGrid 1), ⟨false, 1⟩⟩] ∧
      w2.master.grid (readGrid 1) = (initWorld 4).master.grid (readGrid 1) ∧
      printGrid 1 = readGrid 1 ∧ readGrid 1 ≠ writeGrid 1 :=
  ⟨by decide, snapshot_after_round 4 1 (initWorld 4) (by decide)⟩

/-! ## One round computes the sequential step -/

theorem partitionLoop_carries (src : Buf) (numRows : Int) (hn : 1 ≤ numRows) :
    ∀ (fuel : Nat) (rowi nodei : Int) (b : Buf), XDIM - 2 - rowi ≤ (fuel : Int) → 0 ≤ rowi →
      (numRows + 2) * XDIM ≤ (b.size : Int) →
      ∃ n b2 ms, partitionLoop src numRows fuel rowi nodei b = some (n, b2, ms) ∧
        ∀ msg ∈ ms, ∀ k : Int, 0 ≤ k → k < (msg.endRow - msg.startRow + 1) * XDIM →
          msg.payload.getD k.toNat 0 = load src (k + msg.startRow * XDIM) := by
  intro fuel
  induction fuel with
  | zero =>
    intro rowi nodei b hf _ _
    have h : ¬ rowi < XDIM - 2 := by simp at hf; omega
    exact ⟨nodei, b, [], by simp [partitionLoop, h], by simp⟩
  | succ fuel ih =>
    intro rowi nodei b hf h0 hcap
    by_cases h : rowi < XDIM - 2
    · have hsz := (split_writes src b rowi
        (if rowi + numRows + 1 ≥ YDIM then YDIM - 1 else rowi + numRows + 1)).1
      obtain ⟨n, b2, ms, h1, h2⟩ := ih (rowi + numRows) (nodei + 1)
        (split src b rowi (if rowi + numRows + 1 ≥ YDIM then YDIM - 1 else rowi + numRows + 1))
        (by push_cast at hf; omega) (by omega) (by rw [hsz]; exact hcap)
      refine ⟨n, b2,
        ⟨nodei, rowi, if rowi + numRows + 1 ≥ YDIM then YDIM - 1 else rowi + numRows + 1,
          cells (split src b rowi
              (if rowi + numRows + 1 ≥ YDIM then YDIM - 1 else rowi + numRows + 1))
            (((if rowi + numRows + 1 ≥ YDIM then YDIM - 1 else rowi + numRows + 1) - rowi + 1)
              * XDIM)⟩ :: ms,
        by simp only [partitionLoop, h, if_true, h1], ?_⟩
      intro msg hmsg
      rcases List.mem_cons.mp hmsg with rfl | hm
      · intro k k0 k1
        simp only [] at k1 ⊢
        have hk : ((k.toNat : Nat) : Int) = k := by omega
        rw [getD_cells _ _ k.toNat (by rw [hk]; exact k1), hk]
        refine ((split_writes src b rowi _).2 k).1 ⟨k / XDIM, k % XDIM, ?_, ?_, ?_, ?_, ?_, k0, ?_⟩
        · simp only [XDIM] at *; omega
        · simp only [XDIM, YDIM] at *; split at k1 <;> split <;> omega
        · simp only [XDIM] at *; omega
        · simp only [XDIM] at *; omega
        · simp only [XDIM] at *; omega
        · simp only [XDIM, YDIM] at *; split at k1 <;> omega
      · exact h2 msg hm
    · exact ⟨nodei, b, [], by simp [partitionLoop, h], by simp⟩

theorem dispatch_assigned (numtasks it : Int) (m : Master) (h : 2 ≤ numtasks)
    (hsz : (m.broken_u_a.size : Int) = splitSizeI numtasks * YDIM) :
    ∃ b rs ss, dispatch numtasks it m = some (b, rs ++ ss) ∧
      b.size = m.broken_u_a.size ∧
      Tiles (splitSizeI numtasks - 2) 0 1 rs ∧
      (∀ msg ∈ rs ++ ss, Assigned (splitSizeI numtasks * YDIM) (splitSource it m) msg ∧
        1 ≤ msg.rank ∧ msg.rank < numtasks) ∧
      (rs ++ ss).map (fun msg => msg.rank)
        = (List.range (numtasks - 1).toNat).map (fun (k : Nat) => 1 + (k : Int)) := by
  obtain ⟨hs1, hs2, _⟩ := splitSizeI_spec numtasks h
  have hn : 1 ≤ splitSizeI numtasks - 2 := by omega
  obtain ⟨n, b, rs, ss, hp, hd, hb, ht, _, hss, hranks⟩ := dispatch_ranks_aux numtasks it m h
  obtain ⟨n2, b2, ms2, hp2, hcar⟩ := partitionLoop_carries (splitSource it m)
    (splitSizeI numtasks - 2) hn XDIM.toNat 0 1 m.broken_u_a (by simp [XDIM]) (le_refl 0)
    (by rw [hsz]; simp only [XDIM, YDIM]; omega)
  have e : (n2, b2, ms2) = (n, b, rs) := by
    have : partition numtasks it m = some (n2, b2, ms2) := hp2
    rw [hp] at this
    exact (Option.some.inj this).symm
  simp only [Prod.mk.injEq] at e
  obtain ⟨_, _, e3⟩ := e
  subst e3
  refine ⟨b, ms2, ss, hd, hb, ht, ?_, hranks⟩
  intro msg hmsg
  have hmem : msg.rank ∈ (ms2 ++ ss).map (fun msg => msg.rank) := List.mem_map_of_mem _ hmsg
  rw [hranks, List.mem_map] at hmem
  obtain ⟨k, hk, e⟩ := hmem
  rw [List.mem_range] at hk
  refine ⟨?_, by omega, by omega⟩
  rcases List.mem_append.mp hmsg with hm | hm
  · obtain ⟨t1, t2, t3, t4, t5, t6, t7⟩ := tiles_mem _ hn ms2 0 1 (le_refl 0) ht msg hm
    have hlen : (msg.payload.length : Int) = (msg.endRow - msg.startRow + 1) * XDIM := by
      rw [t7]; simp only [XDIM] at *; omega
    refine ⟨⟨by omega, by omega, by omega, by omega⟩, ?_, fun _ => ⟨hlen, hcar msg hm⟩⟩
    simp only [XDIM, YDIM] at *
    omega
  · obtain ⟨e1, e2, e3⟩ := hss msg hm
    refine ⟨⟨by omega, by omega, by rw [e2]; decide, by rw [e1, e2, e3]; decide⟩, ?_,
      fun hc => by omega⟩
    rw [e1, e2]
    simp only [XDIM, YDIM] at *
    omega

theorem stencil_update (src u2 : Buf) (r c : Int) (hsz : (u2.size : Int) = XDIM * YDIM)
    (r1 : 1 ≤ r) (r2 : r ≤ XDIM - 2) (c1 : 1 ≤ c) (c2 : c ≤ YDIM - 2) :
    load (update XDIM YDIM src u2) (r * YDIM + c) = stencil src (r * YDIM + c) := by
  rw [((update_writes XDIM YDIM src u2).2 (r * YDIM + c)).1
    ⟨r, c, r1, r2, c1, c2, rfl, by simp only [YDIM] at *; omega,
      by rw [hsz]; simp only [XDIM, YDIM] at *; omega⟩]
  rfl

theorem workerRound_answer (cap : Int) (src : Buf) (msg : Msg) (w : Worker)
    (h : Assigned cap src msg) (ha : (w.broken_u_a.size : Int) = cap)
    (hb : (w.broken_u_b.size : Int) = cap) :
    ∃ w2 reply, workerRound msg w = some (w2, reply) ∧ reply.rank = msg.rank ∧
      reply.startRow = msg.startRow ∧ reply.endRow = msg.endRow ∧ Answered cap src reply ∧
      (w2.broken_u_a.size : Int) = cap ∧ (w2.broken_u_b.size : Int) = cap := by
  obtain ⟨⟨h0, h1, h2, h3⟩, hfit, hcontent⟩ := h
  obtain ⟨a, hra, hsa⟩ := recvCells_some msg.payload ((msg.endRow - msg.startRow + 1) * XDIM)
    w.broken_u_a h3
  have hla := (load_recvCells _ _ _ a hra).2
  have hu := update_writes (msg.endRow - msg.startRow + 1) YDIM a w.broken_u_b
  refine ⟨⟨a, update (msg.endRow - msg.startRow + 1) YDIM a w.broken_u_b⟩,
    ⟨msg.rank, msg.startRow, msg.endRow,
      cells (update (msg.endRow - msg.startRow + 1) YDIM a w.broken_u_b)
        ((msg.endRow - msg.startRow + 1) * XDIM)⟩, ?_, rfl, rfl, rfl, ?_, ?_, ?_⟩
  · unfold workerRound
    simp only []
    rw [hra]
  · refine ⟨⟨h0, h1, h2, ?_⟩, hfit, ?_, ?_⟩
    · simp only [length_cells]
      simp only [XDIM] at *
      omega
    · simp only [length_cells]
      simp only [XDIM] at *
      omega
    · intro i j i1 i2 j1 j2
      simp only [] at i2 ⊢
      obtain ⟨hlen, hpay⟩ := hcontent (by omega)
      have hx0 : 0 ≤ i * YDIM + j := by simp only [YDIM] at *; omega
      have hk : (((i * YDIM + j).toNat : Nat) : Int) = i * YDIM + j := by omega
      rw [getD_cells _ _ _ (by rw [hk]; simp only [XDIM, YDIM] at *; omega), hk]
      rw [(hu.2 _).1 ⟨i, j, i1, by omega, j1, j2, rfl, hx0,
        by rw [hb]; simp only [XDIM, YDIM] at *; omega⟩]
      have hcell : ∀ y : Int, 0 ≤ y → y < (msg.endRow - msg.startRow + 1) * XDIM →
          load a y = load src (y + msg.startRow * XDIM) := by
        intro y y0 y1
        rw [(hla y).1 ⟨y0, by omega, by rw [ha]; omega⟩]
        exact hpay y y0 y1
      unfold stencil
      rw [hcell _ (by simp only [XDIM, YDIM] at *; omega) (by simp only [XDIM, YDIM] at *; omega),
        hcell (i * YDIM + j + YDIM) (by simp only [XDIM, YDIM] at *; omega)
          (by simp only [XDIM, YDIM] at *; omega),
        hcell (i * YDIM + j - YDIM) (by simp only [XDIM, YDIM] at *; omega)
          (by simp only [XDIM, YDIM] at *; omega),
        hcell (i * YDIM + j + 1) (by simp only [XDIM, YDIM] at *; omega)
          (by simp only [XDIM, YDIM] at *; omega),
        hcell (i * YDIM + j - 1) (by simp only [XDIM, YDIM] at *; omega)
          (by simp only [XDIM, YDIM] at *; omega)]
      have hXY : XDIM = YDIM := rfl
      have e0 : i * YDIM + j + msg.startRow * XDIM = (msg.startRow + i) * YDIM + j := by
        rw [hXY]; ring
      have e1 : i * YDIM + j + YDIM + msg.startRow * XDIM
          = (msg.startRow + i) * YDIM + j + YDIM := by rw [hXY]; ring
      have e2 : i * YDIM + j - YDIM + msg.startRow * XDIM
          = (msg.startRow + i) * YDIM + j - YDIM := by rw [hXY]; ring
      have e3 : i * YDIM + j + 1 + msg.startRow * XDIM
          = (msg.startRow + i) * YDIM + j + 1 := by rw [hXY]; ring
      have e4 : i * YDIM + j - 1 + msg.startRow * XDIM
          = (msg.startRow + i) * YDIM + j - 1 := by rw [hXY]; ring
      rw [e0, e1, e2, e3, e4]
  · show ((a.size : Nat) : Int) = cap
    rw [hsa, ha]
  · show (((update (msg.endRow - msg.startRow + 1) YDIM a w.broken_u_b).size : Nat) : Int) = cap
    rw [hu.1, hb]

theorem deliver_answers (numtasks cap : Int) (src : Buf) :
    ∀ (msgs : List Msg) (ws : Int → Worker),
      (∀ msg ∈ msgs, Assigned cap src msg ∧ 1 ≤ msg.rank ∧ msg.rank < numtasks) →
      (∀ rank : Int, ((ws rank).broken_u_a.size : Int) = cap ∧
        ((ws rank).broken_u_b.size : Int) = cap) →
      ∃ ws2 replies, deliver numtasks msgs ws = some (ws2, replies) ∧
        replies.map (fun r => (r.rank, r.startRow, r.endRow))
          = msgs.map (fun r => (r.rank, r.startRow, r.endRow)) ∧
        (∀ r ∈ replies, Answered cap src r) ∧
        (∀ rank : Int, ((ws2 rank).broken_u_a.size : Int) = cap ∧
          ((ws2 rank).broken_u_b.size : Int) = cap) := by
  intro msgs
  induction msgs with
  | nil => intro ws _ hws; exact ⟨ws, [], rfl, rfl, by simp, hws⟩
  | cons msg rest ih =>
    intro ws hall hws
    obtain ⟨hs, hr1, hr2⟩ := hall msg (List.mem_cons_self _ _)
    obtain ⟨w2, reply, hw, e1, e2, e3, hans, ha2, hb2⟩ :=
      workerRound_answer cap src msg (ws msg.rank) hs (hws msg.rank).1 (hws msg.rank).2
    obtain ⟨ws2, replies, hd, hmap, hgood, hws2⟩ :=
      ih (fun r => if r = msg.rank then w2 else ws r)
        (fun m hm => hall m (List.mem_cons_of_mem _ hm))
        (by
          intro rank
          by_cases hr : rank = msg.rank
          · simp only [hr, if_true]; exact ⟨ha2, hb2⟩
          · simp only [hr, if_false]; exact hws rank)
    refine ⟨ws2, reply :: replies, ?_, ?_, ?_, hws2⟩
    · simp only [deliver, hr1, hr2, and_self, if_true, hw, hd]
    · simp only [List.map_cons, hmap, e1, e2, e3]
    · intro r hr
      rcases List.mem_cons.mp hr with rfl | hr
      · exact hans
      · exact hgood r hr

theorem find_rank_unique :
    ∀ (replies : List Msg), (replies.map (fun r => r.rank)).Nodup → ∀ r ∈ replies,
      replies.find? (fun q => decide (q.rank = r.rank)) = some r := by
  intro replies
  induction replies with
  | nil => intro _ r hr; simp at hr
  | cons a rest ih =>
    intro hnd r hr
    rw [List.map_cons, List.nodup_cons] at hnd
    rcases List.mem_cons.mp hr with rfl | hr
    · simp [List.find?_cons]
    · have hne : a.rank ≠ r.rank := by
        intro he
        exact hnd.1 (he ▸ List.mem_map_of_mem (fun r => r.rank) hr)
      rw [List.find?_cons]
      simp only [hne, decide_False]
      exact ih hnd.2 r hr

theorem collectStep_interior (cap : Int) (src : Buf) (it : Int) (replies : List Msg)
    (nodei : Int) (m : Master) (r0 : Msg)
    (hfind : replies.find? (fun r => decide (r.rank = nodei)) = some r0)
    (hans : Answered cap src r0)
    (hbb : (m.broken_u_b.size : Int) = cap)
    (hgrid : ((stateGrid it m).size : Int) = XDIM * YDIM) :
    ∃ m2, collectStep it replies nodei m = some m2 ∧
      (m2.broken_u_b.size : Int) = cap ∧ ((stateGrid it m2).size : Int) = XDIM * YDIM ∧
      ∀ x : Int,
        ((∃ i j : Int, 1 ≤ i ∧ i ≤ r0.endRow - r0.startRow - 1 ∧ 1 ≤ j ∧ j ≤ YDIM - 2 ∧
            x = (r0.startRow + i) * YDIM + j) →
          load (stateGrid it m2) x = stencil src x) ∧
        ((¬ ∃ i j : Int, 1 ≤ i ∧ i ≤ r0.endRow - r0.startRow - 1 ∧ 1 ≤ j ∧ j ≤ YDIM - 2 ∧
            x = (r0.startRow + i) * YDIM + j) →
          load (stateGrid it m2) x = load (stateGrid it m) x) := by
  obtain ⟨⟨h0, h1, h2, h3⟩, hfit, hlen, hcontent⟩ := hans
  obtain ⟨bb, hrb, hsb⟩ := recvCells_some r0.payload ((r0.endRow - r0.startRow + 1) * XDIM)
    m.broken_u_b h3
  have hlb := (load_recvCells _ _ _ bb hrb).2
  have key : ∀ (tar : Buf), ((tar.size : Nat) : Int) = XDIM * YDIM →
      ((combine bb tar r0.startRow r0.endRow).size : Int) = XDIM * YDIM ∧
      ∀ x : Int,
        ((∃ i j : Int, 1 ≤ i ∧ i ≤ r0.endRow - r0.startRow - 1 ∧ 1 ≤ j ∧ j ≤ YDIM - 2 ∧
            x = (r0.startRow + i) * YDIM + j) →
          load (combine bb tar r0.startRow r0.endRow) x = stencil src x) ∧
        ((¬ ∃ i j : Int, 1 ≤ i ∧ i ≤ r0.endRow - r0.startRow - 1 ∧ 1 ≤ j ∧ j ≤ YDIM - 2 ∧
            x = (r0.startRow + i) * YDIM + j) →
          load (combine bb tar r0.startRow r0.endRow) x = load tar x) := by
    intro tar htar
    have hc := combine_writes bb tar r0.startRow r0.endRow
    refine ⟨by rw [hc.1]; exact htar, fun x => ⟨?_, ?_⟩⟩
    · rintro ⟨i, j, i1, i2, j1, j2, hx⟩
      rw [(hc.2 x).1 ⟨i, j, i1, i2, j1, by omega, hx, by simp only [YDIM] at *; omega,
        by rw [htar]; simp only [XDIM, YDIM] at *; omega⟩]
      have e : x - r0.startRow * YDIM = i * YDIM + j := by rw [hx]; ring
      rw [e, (hlb _).1 ⟨by simp only [YDIM] at *; omega,
        by rw [hlen]; simp only [XDIM, YDIM] at *; omega,
        by rw [hbb]; simp only [XDIM, YDIM] at *; omega⟩, hcontent i j i1 i2 j1 j2, hx]
    · intro hn
      refine (hc.2 x).2 ?_
      rintro ⟨i, j, i1, i2, j1, j2, hx, _, _⟩
      exact hn ⟨i, j, i1, i2, j1, by omega, hx⟩
  unfold collectStep
  simp only [hfind, hrb]
  unfold stateGrid at hgrid ⊢
  cases ho : isOdd it with
  | true =>
    simp only [ho, if_true] at hgrid ⊢
    obtain ⟨k1, k2⟩ := key m.full_u_b hgrid
    exact ⟨_, rfl, by show ((bb.size : Nat) : Int) = cap; rw [hsb, hbb], k1, k2⟩
  | false =>
    simp only [ho, Bool.false_eq_true, if_false] at hgrid ⊢
    obtain ⟨k1, k2⟩ := key m.full_u_a hgrid
    exact ⟨_, rfl, by show ((bb.size : Nat) : Int) = cap; rw [hsb, hbb], k1, k2⟩

theorem collect_interior (numtasks cap : Int) (src : Buf) (it : Int) (replies : List Msg)
    (m : Master)
    (hranks : replies.map (fun r => r.rank)
      = (List.range (numtasks - 1).toNat).map (fun (k : Nat) => 1 + (k : Int)))
    (hans : ∀ r ∈ replies, Answered cap src r)
    (hbb : (m.broken_u_b.size : Int) = cap)
    (hgrid : ((stateGrid it m).size : Int) = XDIM * YDIM) :
    ∃ m2, collect numtasks it replies m = some m2 ∧
      (m2.broken_u_b.size : Int) = cap ∧ ((stateGrid it m2).size : Int) = XDIM * YDIM ∧
      ∀ r ∈ replies, ∀ i j : Int, 1 ≤ i → i ≤ r.endRow - r.startRow - 1 → 1 ≤ j →
        j ≤ YDIM - 2 →
        load (stateGrid it m2) ((r.startRow + i) * YDIM + j)
          = stencil src ((r.startRow + i) * YDIM + j) := by
  have hnd : (replies.map (fun r => r.rank)).Nodup := by
    rw [hranks]
    apply List.Nodup.map _ (List.nodup_range _)
    intro a c hac
    simp only at hac
    omega
  have hfinal : ∀ r ∈ replies, r.rank < 1 + ((numtasks - 1).toNat : Int) := by
    intro r hr
    have hmem : r.rank ∈ replies.map (fun r => r.rank) := List.mem_map_of_mem _ hr
    rw [hranks, List.mem_map] at hmem
    obtain ⟨k, hk, e⟩ := hmem
    rw [List.mem_range] at hk
    omega
  unfold collect forLt
  have key := loopFrom_inv (fun nodei (s : Option Master) =>
      match s with
      | none => none
      | some m => collectStep it replies nodei m) (numtasks - 1).toNat
    (fun k s => ∃ m1, s = some m1 ∧ (m1.broken_u_b.size : Int) = cap ∧
      ((stateGrid it m1).size : Int) = XDIM * YDIM ∧
      ∀ r ∈ replies, r.rank < 1 + (k : Int) → ∀ i j : Int, 1 ≤ i →
        i ≤ r.endRow - r.startRow - 1 → 1 ≤ j → j ≤ YDIM - 2 →
        load (stateGrid it m1) ((r.startRow + i) * YDIM + j)
          = stencil src ((r.startRow + i) * YDIM + j)) 1 (some m)
    ⟨m, rfl, hbb, hgrid, by
      intro r hr hlt
      have hmem : r.rank ∈ replies.map (fun r => r.rank) := List.mem_map_of_mem _ hr
      rw [hranks, List.mem_map] at hmem
      obtain ⟨k, _, e⟩ := hmem
      simp only [Nat.cast_zero, add_zero] at hlt
      omega⟩
    (by
      rintro k s hk ⟨m1, rfl, hb1, hg1, ih⟩
      have hmem : (1 + (k : Int)) ∈ replies.map (fun r => r.rank) := by
        rw [hranks, List.mem_map]
        exact ⟨k, List.mem_range.mpr hk, rfl⟩
      obtain ⟨r0, hf0, hr0⟩ := find_rank replies (1 + k) hmem
      have hrank0 : r0.rank = 1 + (k : Int) := by
        have := List.find?_some hf0
        simpa using this
      obtain ⟨m2, hm2, hb2, hg2, hload⟩ := collectStep_interior cap src it replies (1 + k) m1 r0
        hf0 (hans r0 hr0) hb1 hg1
      refine ⟨m2, hm2, hb2, hg2, ?_⟩
      intro r hr hlt i j i1 i2 j1 j2
      by_cases hreg : ∃ i0 j0 : Int, 1 ≤ i0 ∧ i0 ≤ r0.endRow - r0.startRow - 1 ∧ 1 ≤ j0 ∧
          j0 ≤ YDIM - 2 ∧ (r.startRow + i) * YDIM + j = (r0.startRow + i0) * YDIM + j0
      · exact (hload _).1 hreg
      · rw [(hload _).2 hreg]
        by_cases hlt2 : r.rank < 1 + (k : Int)
        · exact ih r hr hlt2 i j i1 i2 j1 j2
        · have hrk : r.rank = 1 + (k : Int) := by push_cast at hlt; omega
          have hu := find_rank_unique replies hnd r hr
          rw [hrk, hf0] at hu
          have hrr : r0 = r := Option.some.inj hu
          subst hrr
          exact absurd ⟨i, j, i1, i2, j1, j2, rfl⟩ hreg)
  obtain ⟨m2, h2, hb2, hg2, hall⟩ := key
  exact ⟨m2, h2, hb2, hg2, fun r hr => hall r hr (hfinal r hr)⟩

theorem sizes_of_grids (it : Int) (m : Master) :
    ((m.full_u_a.size : Int) = XDIM * YDIM ∧ (m.full_u_b.size : Int) = XDIM * YDIM) ↔
    (((splitSource it m).size : Int) = XDIM * YDIM ∧
      ((stateGrid it m).size : Int) = XDIM * YDIM) := by
  unfold splitSource stateGrid
  cases isOdd it with
  | true => simp only [if_true]
  | false => simp only [Bool.false_eq_true, if_false]; exact And.comm

theorem round_interior (numtasks it : Int) (w : World) (h : 2 ≤ numtasks)
    (hw : WellSized numtasks w) :
    ∃ w2, round numtasks it w = some w2 ∧ WellSized numtasks w2 ∧
      ∀ r c : Int, 1 ≤ r → r ≤ XDIM - 2 → 1 ≤ c → c ≤ YDIM - 2 →
        load (stateGrid it w2.master) (r * YDIM + c)
          = stencil (splitSource it w.master) (r * YDIM + c) := by
  obtain ⟨ha, hb, hba, hbb, hws⟩ := hw
  obtain ⟨hs1, _, _⟩ := splitSizeI_spec numtasks h
  have hn : 1 ≤ splitSizeI numtasks - 2 := by omega
  obtain ⟨b, rs, ss, hd, hbsz, ht, hall, hranks⟩ := dispatch_assigned numtasks it w.master h hba
  obtain ⟨ws2, replies, hdel, hmap, hans, hws2⟩ := deliver_answers numtasks
    (splitSizeI numtasks * YDIM) (splitSource it w.master) (rs ++ ss) w.workers hall hws
  have hrk : replies.map (fun r => r.rank)
      = (List.range (numtasks - 1).toNat).map (fun (k : Nat) => 1 + (k : Int)) := by
    rw [← hranks]
    have := congrArg (List.map (fun t : Int × Int × Int => t.1)) hmap
    simpa [List.map_map] using this
  have hsizes := (sizes_of_grids it w.master).mp ⟨ha, hb⟩
  obtain ⟨m2, hc, hb2, hg2, hint⟩ := collect_interior numtasks (splitSizeI numtasks * YDIM)
    (splitSource it w.master) it replies { w.master with broken_u_a := b } hrk hans hbb
    (by
      have := hsizes.2
      unfold stateGrid at this ⊢
      exact this)
  obtain ⟨_, f2, f3⟩ := collect_frame numtasks it replies _ m2 hc
  have hsrc : splitSource it m2 = splitSource it w.master := by
    rw [f3]; unfold splitSource; split <;> rfl
  refine ⟨⟨snapshot it m2, ws2⟩, ?_, ?_, ?_⟩
  · unfold round
    simp only [hd, hdel, hc]
  · have hgr := (sizes_of_grids it m2).mpr ⟨by rw [hsrc]; exact hsizes.1, hg2⟩
    refine ⟨?_, ?_, ?_, ?_, hws2⟩
    · show (((snapshot it m2).full_u_a.size : Nat) : Int) = _
      rw [(snapshot_grids it m2).1]; exact hgr.1
    · show (((snapshot it m2).full_u_b.size : Nat) : Int) = _
      rw [(snapshot_grids it m2).2]; exact hgr.2
    · show (((snapshot it m2).broken_u_a.size : Nat) : Int) = _
      have e : (snapshot it m2).broken_u_a = m2.broken_u_a := by
        unfold snapshot prtdata; split <;> rfl
      rw [e, f2]
      show ((b.size : Nat) : Int) = _
      rw [hbsz]; exact hba
    · show (((snapshot it m2).broken_u_b.size : Nat) : Int) = _
      have e : (snapshot it m2).broken_u_b = m2.broken_u_b := by
        unfold snapshot prtdata; split <;> rfl
      rw [e]; exact hb2
  · intro r c r1 r2 c1 c2
    have hcov := (tiles_cover _ hn rs 0 1 (le_refl 0) ht r).mp ⟨by omega, r2⟩
    obtain ⟨msg, hmsg, m1, m2'⟩ := hcov
    have hmem : (msg.rank, msg.startRow, msg.endRow)
        ∈ (rs ++ ss).map (fun r => (r.rank, r.startRow, r.endRow)) :=
      List.mem_map_of_mem (fun r => (r.rank, r.startRow, r.endRow))
        (List.mem_append_left _ hmsg)
    rw [← hmap, List.mem_map] at hmem
    obtain ⟨rep, hrep, e⟩ := hmem
    simp only [Prod.mk.injEq] at e
    obtain ⟨_, e2, e3⟩ := e
    have hgs : stateGrid it (snapshot it m2) = stateGrid it m2 := by
      unfold stateGrid
      rw [(snapshot_grids it m2).1, (snapshot_grids it m2).2]
    show load (stateGrid it (snapshot it m2)) (r * YDIM + c) = _
    rw [hgs]
    have := hint rep hrep (r - rep.startRow) c (by omega) (by omega) c1 c2
    have e4 : (rep.startRow + (r - rep.startRow)) * YDIM + c = r * YDIM + c := by ring
    rw [e4] at this
    exact this

theorem initWorld_wellSized (numtasks : Int) (h : 2 ≤ numtasks) :
    WellSized numtasks (initWorld numtasks) := by
  obtain ⟨hs1, _, _⟩ := splitSizeI_spec numtasks h
  have hcap : ((callocBuf (splitSizeI numtasks * YDIM)).size : Int)
      = splitSizeI numtasks * YDIM := by
    rw [size_callocBuf]
    simp only [YDIM] at *
    omega
  have hgrid : ((callocBuf (XDIM * YDIM)).size : Int) = XDIM * YDIM := by
    rw [size_callocBuf]; decide
  have hinit : ((initdata XDIM YDIM (callocBuf (XDIM * YDIM))).size : Int) = XDIM * YDIM := by
    rw [(initdata_writes XDIM YDIM (by decide) _).1]; exact hgrid
  have e := initWorld_grids numtasks
  refine ⟨by rw [e.1]; exact hinit, by rw [e.2]; exact hgrid, ?_, ?_, fun _ => ⟨?_, ?_⟩⟩
  · have e3 : (initWorld numtasks).master.broken_u_a = callocBuf (splitSizeI numtasks * YDIM) := by
      simp only [initWorld, prtdata]
    rw [e3]; exact hcap
  · have e4 : (initWorld numtasks).master.broken_u_b = callocBuf (splitSizeI numtasks * YDIM) := by
      simp only [initWorld, prtdata]
    rw [e4]; exact hcap
  · have e5 : ∀ rank, ((initWorld numtasks).workers rank).broken_u_a
        = callocBuf (splitSizeI numtasks * YDIM) := by
      intro rank; simp only [initWorld]
    rw [e5]; exact hcap
  · have e6 : ∀ rank, ((initWorld numtasks).workers rank).broken_u_b
        = callocBuf (splitSizeI numtasks * YDIM) := by
      intro rank; simp only [initWorld]
    rw [e6]; exact hcap

theorem rounds_wellSized (numtasks : Int) (h : 2 ≤ numtasks) (w0 : World)
    (hw0 : WellSized numtasks w0) (n : Nat) (lo : Int) :
    ∃ w, loopFrom (fun it s =>
        match s with
        | none => none
        | some w => round numtasks it w) n lo (some w0) = some w ∧ WellSized numtasks w := by
  refine loopFrom_inv _ n (fun _ s => ∃ w, s = some w ∧ WellSized numtasks w) lo (some w0)
    ⟨w0, Eq.refl _, hw0⟩ ?_
  rintro k s _ ⟨w1, rfl, hw1⟩
  obtain ⟨w2, h2, hw2, _⟩ := round_interior numtasks (lo + k) w1 h hw1
  exact ⟨w2, h2, hw2⟩

theorem timesteps_wellSized (numtasks t : Int) (h : 2 ≤ numtasks) :
    ∃ w, timesteps numtasks t = some w ∧ WellSized numtasks w :=
  rounds_wellSized numtasks h (initWorld numtasks) (initWorld_wellSized numtasks h)
    (t + 1 - 1).toNat 1

theorem loopFrom_succ_last {σ : Type} (body : Int → σ → σ) :
    ∀ (n : Nat) (lo : Int) (s : σ),
      loopFrom body (n + 1) lo s = body (lo + (n : Int)) (loopFrom body n lo s) := by
  intro n
  induction n with
  | zero => intro lo s; simp [loopFrom]
  | succ n ih =>
    intro lo s
    rw [loopFrom, ih (lo + 1) (body lo s)]
    have e : lo + 1 + (n : Int) = lo + ((n + 1 : Nat) : Int) := by push_cast; ring
    rw [e]
    rfl

theorem timesteps_succ (numtasks t : Int) (h0 : 0 ≤ t) (w : World)
    (hw : timesteps numtasks t = some w) :
    timesteps numtasks (t + 1) = round numtasks (t + 1) w := by
  unfold timesteps forLe at hw ⊢
  have e : (t + 1 + 1 - 1).toNat = (t + 1 - 1).toNat + 1 := by omega
  rw [e, loopFrom_succ_last, hw]
  have e2 : (1 : Int) + (((t + 1 - 1).toNat : Nat) : Int) = t + 1 := by omega
  rw [e2]

/-- C18: for every process count `numtasks ≥ 2`, every timestep `it` and every
state of the run in which the buffers have their allocated sizes, the round
ends, the buffers keep their sizes, and every interior cell `(r, c)` with
`1 ≤ r ≤ XDIM-2` and `1 ≤ c ≤ YDIM-2` of the grid that `combine` writes holds the
value that `update XDIM YDIM` computes for `(r, c)` from the grid that `split`
reads.  That value depends neither on the process count nor on what the written
grid, the staging buffers and the worker buffers held before. -/
theorem distributed_step (numtasks it : Int) (w : World) (u2 : Buf) (h : 2 ≤ numtasks)
    (hw : WellSized numtasks w) (hu : (u2.size : Int) = XDIM * YDIM) :
    ∃ w2, round numtasks it w = some w2 ∧ WellSized numtasks w2 ∧
      ∀ r c : Int, 1 ≤ r → r ≤ XDIM - 2 → 1 ≤ c → c ≤ YDIM - 2 →
        load (w2.master.grid (writeGrid it)) (r * YDIM + c)
          = load (update XDIM YDIM (w.master.grid (readGrid it)) u2) (r * YDIM + c) := by
  obtain ⟨w2, h2, hw2, hint⟩ := round_interior numtasks it w h hw
  refine ⟨w2, h2, hw2, ?_⟩
  intro r c r1 r2 c1 c2
  rw [← stateGrid_eq, ← splitSource_eq, hint r c r1 r2 c1 c2,
    stencil_update _ u2 r c hu r1 r2 c1 c2]

/-- Witness for C18: the first timestep of a run with four processes. -/
theorem distributed_step_witness :
    ((2 : Int) ≤ 4 ∧ WellSized 4 (initWorld 4) ∧
      ((callocBuf (XDIM * YDIM)).size : Int) = XDIM * YDIM) ∧
    ∃ w2, round 4 1 (initWorld 4) = some w2 ∧ WellSized 4 w2 ∧
      ∀ r c : Int, 1 ≤ r → r ≤ XDIM - 2 → 1 ≤ c → c ≤ YDIM - 2 →
        load (w2.master.grid (writeGrid 1)) (r * YDIM + c)
          = load (update XDIM YDIM ((initWorld 4).master.grid (readGrid 1))
              (callocBuf (XDIM * YDIM))) (r * YDIM + c) :=
  ⟨⟨by decide, initWorld_wellSized 4 (by decide), by rw [size_callocBuf]; decide⟩,
    distributed_step 4 1 (initWorld 4) (callocBuf (XDIM * YDIM)) (by decide)
      (initWorld_wellSized 4 (by decide)) (by rw [size_callocBuf]; decide)⟩

theorem timesteps_zero (numtasks : Int) : timesteps numtasks 0 = some (initWorld numtasks) := by
  unfold timesteps forLe
  have e : ((0 : Int) + 1 - 1).toNat = 0 := by decide
  rw [e, loopFrom]

theorem grid_a (m : Master) : m.grid GridId.a = m.full_u_a := rfl

theorem grid_b (m : Master) : m.grid GridId.b = m.full_u_b := rfl

/-- C12 as stated fails: in a run with two processes the file written at the end
of timestep 1 is `final_new_1.csv` with the timestep index 0, and its grid holds
9604 in cell `(1, 1)`, the initial value, while the grid that the `combine`
calls of timestep 1 wrote holds 47824/5 there. -/
theorem snapshot_counterexample :
    ∃ w f, timesteps 2 1 = some w ∧
      w.master.files = (initWorld 2).master.files ++ [f] ∧
      f.fname = ⟨false, 1⟩ ∧ f.ts = 0 ∧ f.ts ≠ 1 ∧
      load f.grid (1 * YDIM + 1) = 9604 ∧
      load (w.master.grid (writeGrid 1)) (1 * YDIM + 1) = 47824 / 5 := by
  obtain ⟨w, hw, _, hint⟩ := round_interior 2 1 (initWorld 2) (by decide)
    (initWorld_wellSized 2 (by decide))
  obtain ⟨f1, _⟩ := round_frame 2 1 (initWorld 2) w hw
  have hts : timesteps 2 1 = some w := by
    have := timesteps_succ 2 0 (le_refl 0) (initWorld 2) (timesteps_zero 2)
    rw [← hw]
    exact this
  have hsrc : splitSource 1 (initWorld 2).master
      = initdata XDIM YDIM (callocBuf (XDIM * YDIM)) := by
    rw [splitSource_eq]
    have e : readGrid 1 = GridId.a := by decide
    rw [e, grid_a]
    exact (initWorld_grids 2).1
  have hcell : ∀ r c : Int, 0 ≤ r → r ≤ 99 → 0 ≤ c → c ≤ 99 →
      load (initdata XDIM YDIM (callocBuf (XDIM * YDIM))) (r * 100 + c)
        = ((initCell 100 100 r c : Int) : ℚ) := by
    intro r c r0 r1 c0 c1
    exact initdata_grid r c r0 (by simp only [XDIM]; omega) c0 (by simp only [YDIM]; omega)
  have c11 : load (initdata XDIM YDIM (callocBuf (XDIM * YDIM))) 101 = 9604 := by
    have := hcell 1 1 (by decide) (by decide) (by decide) (by decide)
    simpa [initCell, wrap32] using this
  have c21 : load (initdata XDIM YDIM (callocBuf (XDIM * YDIM))) 201 = 19012 := by
    have := hcell 2 1 (by decide) (by decide) (by decide) (by decide)
    simpa [initCell, wrap32] using this
  have c01 : load (initdata XDIM YDIM (callocBuf (XDIM * YDIM))) 1 = 0 := by
    have := hcell 0 1 (by decide) (by decide) (by decide) (by decide)
    simpa [initCell, wrap32] using this
  have c12 : load (initdata XDIM YDIM (callocBuf (XDIM * YDIM))) 102 = 19012 := by
    have := hcell 1 2 (by decide) (by decide) (by decide) (by decide)
    simpa [initCell, wrap32] using this
  have c10 : load (initdata XDIM YDIM (callocBuf (XDIM * YDIM))) 100 = 0 := by
    have := hcell 1 0 (by decide) (by decide) (by decide) (by decide)
    simpa [initCell, wrap32] using this
  generalize splitSource 1 (initWorld 2).master = g at f1 hint hsrc
  generalize (initWorld 2).master.files = fs at f1
  refine ⟨w, ⟨XDIM, YDIM, 1 - 1, g, ⟨false, 1⟩⟩, hts, f1, rfl, ?_, ?_, ?_, ?_⟩
  · show (1 - 1 : Int) = 0
    decide
  · show (1 - 1 : Int) ≠ 1
    decide
  · show load g (1 * YDIM + 1) = 9604
    rw [hsrc]
    exact c11
  · rw [← stateGrid_eq, hint 1 1 (by decide) (by decide) (by decide) (by decide), hsrc]
    unfold stencil
    have e0 : (1 : Int) * YDIM + 1 = 101 := by decide
    have e1 : (101 : Int) + YDIM = 201 := by decide
    have e2 : (101 : Int) - YDIM = 1 := by decide
    rw [e0, e1, e2]
    norm_num [c11, c21, c01, c12, c10, params]

end HeatMPI
